import Mathlib

/-!
Verification of the uiget CLI (a Rust tool that installs UI components from
remote registries). The definitions below are a shallow embedding of the
repository's source files (src/registry.rs, src/package_manager.rs,
src/config.rs, src/installer.rs): Rust strings are Lean Strings (operated on
through their character lists), filesystem state is passed explicitly, and
fallible operations return Except/Option. Remote fetches are modelled as an
oracle function supplied as a parameter. Each claim-level theorem names the
part of the code it settles.
-/

/-! ## String utilities mirroring the Rust standard library operations used
by the source. All functions work on the underlying character list so they
reduce well in the kernel. -/

/-- Rust str::starts_with for a literal pattern. -/
def strStartsWith (s pre : String) : Bool :=
  pre.data.isPrefixOf s.data

/-- Rust str::ends_with for a literal pattern. -/
def strEndsWith (s suf : String) : Bool :=
  suf.data.isSuffixOf s.data

/-- Rust str::contains for a literal pattern. -/
def strContainsSub (s sub : String) : Bool :=
  s.data.tails.any (fun t => sub.data.isPrefixOf t)

/-- One replacement pass of Rust str::replace on character lists: replaces
every non-overlapping occurrence of pat left to right. Every step consumes
at least one character, so the fuel (initialised to the list length by
replaceList below) never runs out; it only makes the recursion structural.
(For the empty pattern the Rust behaviour differs, but all patterns used
by the source are non-empty literals, so the guard is never the deciding
case.) -/
def replaceListF (pat rep : List Char) : Nat → List Char → List Char
  | _, [] => []
  | 0, l => l
  | fuel + 1, c :: rest =>
    if pat.isPrefixOf (c :: rest) ∧ pat ≠ [] then
      rep ++ replaceListF pat rep fuel ((c :: rest).drop pat.length)
    else
      c :: replaceListF pat rep fuel rest

/-- The replacement pass at full fuel. -/
def replaceList (pat rep l : List Char) : List Char :=
  replaceListF pat rep l.length l

/-- Rust str::replace. -/
def rustReplace (s pat rep : String) : String :=
  ⟨replaceList pat.data rep.data s.data⟩

/-- Rust char::is_whitespace (ASCII-relevant subset; the source only meets
ASCII whitespace in the inputs the claims quantify over). -/
def isWs (c : Char) : Bool := c.isWhitespace

/-- Rust str::trim on a character list: drop whitespace from both ends. -/
def trimChars (l : List Char) : List Char :=
  ((l.dropWhile isWs).reverse.dropWhile isWs).reverse

/-- Rust str::split(sep) semantics: always at least one piece, empty pieces
kept ("a@@b" gives three pieces, "" gives one empty piece). -/
def splitOnChar (sep : Char) : List Char → List (List Char)
  | [] => [[]]
  | c :: rest =>
    if c = sep then
      [] :: splitOnChar sep rest
    else
      match splitOnChar sep rest with
      | [] => [[c]]
      | h :: t => (c :: h) :: t

/-! ## src/registry.rs: the component data model -/

/-- registry.rs ComponentFile: content, optional type and the two legacy
target fields. -/
structure ComponentFile where
  content : String
  fileType : Option String
  target : Option String
  path : Option String
deriving Repr, DecidableEq

/-- registry.rs ComponentFile::get_target_path: target if present and
non-empty, else path if present and non-empty, else the empty string. -/
def ComponentFile.getTargetPath (f : ComponentFile) : String :=
  match f.target with
  | some t => if t ≠ "" then t else
      match f.path with
      | some p => if p ≠ "" then p else ""
      | none => ""
  | none =>
      match f.path with
      | some p => if p ≠ "" then p else ""
      | none => ""

/-- registry.rs Component (the $schema field, never read by the installer,
is omitted). -/
structure Component where
  name : String
  componentType : Option String
  dependencies : Option (List String)
  devDependencies : Option (List String)
  registryDependencies : Option (List String)
  files : List ComponentFile
  registry : Option String
deriving Repr, DecidableEq

/-! ## src/config.rs: simplify_path -/

/-- The cases of std::path::Component that config.rs matches on. -/
inductive PathComp where
  | normal (s : String)
  | parentDir
  | curDir
  | rootDir
  | pfx (s : String)
deriving Repr, DecidableEq

/-- One iteration of the Config::simplify_path loop: push normal
components, pop on ParentDir when possible (dropLast of an empty list is a
silent no-op, matching the is_empty guard), skip CurDir, clear on RootDir
and on a windows Prefix (re-pushing the prefix itself). -/
def simplifyStep (acc : List PathComp) (c : PathComp) : List PathComp :=
  match c with
  | .normal s => acc ++ [.normal s]
  | .parentDir => acc.dropLast
  | .curDir => acc
  | .rootDir => []
  | .pfx s => [.pfx s]

/-- The accumulator loop of Config::simplify_path. -/
def simplifyLoop (comps : List PathComp) : List PathComp :=
  comps.foldl simplifyStep []

/-- Config::simplify_path: run the loop; an empty result becomes the
literal path ".". -/
def simplify_path (comps : List PathComp) : List PathComp :=
  let r := simplifyLoop comps
  if r = [] then [.curDir] else r

/-! ## src/package_manager.rs: detection data model and the resolution
chain. The detector's filesystem reads are abstracted into a ProjectEnv
record holding the facts the probes inspect. -/

/-- package_manager.rs PackageManager. -/
inductive PM where
  | npm
  | yarnClassic
  | yarnBerry
  | pnpm
  | bun
  | unknown
deriving Repr, DecidableEq

/-- package_manager.rs DetectionSource. -/
inductive DetectionSource where
  | packageJsonField
  | lockfile (p : String)
  | yarnArtifacts (p : String)
  | pnpmArtifacts (p : String)
  | userAgent (ua : String)
  | heuristic
deriving Repr, DecidableEq

/-- package_manager.rs Detection (project_root is a fixed ambient fact of
the environment and is omitted from the record). -/
structure Detection where
  manager : PM
  versionHint : Option String
  source : DetectionSource
deriving Repr, DecidableEq

/-- Rust char lowercasing as used by to_lowercase on ASCII manager names. -/
def lowerStr (s : String) : String := ⟨s.data.map Char.toLower⟩

/-- Rust u64::from_str: optional leading plus sign, at least one ASCII
digit, value below 2^64. Returns none on any other input. -/
def parseU64 (l : List Char) : Option Nat :=
  let digits := if l.head? = some '+' then l.tail else l
  if digits ≠ [] ∧ digits.all Char.isDigit then
    let v := digits.foldl (fun n c => n * 10 + (c.toNat - 48)) 0
    if v < 2 ^ 64 then some v else none
  else none

/-- package_manager.rs is_semver_gte: split the version on dots, parse each
piece as u64 defaulting to 0, take the first three pieces (missing pieces
default to 0) and compare lexicographically. -/
def is_semver_gte (ver : String) (maj min pat : Nat) : Bool :=
  let nums := (splitOnChar '.' ver.data).map (fun p => (parseU64 p).getD 0)
  let vmaj := nums.getD 0 0
  let vmin := nums.getD 1 0
  let vpat := nums.getD 2 0
  if vmaj ≠ maj then decide (maj < vmaj)
  else if vmin ≠ min then decide (min < vmin)
  else decide (pat ≤ vpat)

/-- The character class of the regex name group: [a-zA-Z]. -/
def isAsciiAlpha (c : Char) : Bool :=
  ('a' ≤ c ∧ c ≤ 'z') ∨ ('A' ≤ c ∧ c ≤ 'Z')

/-- The character class of the regex version group: [\w.\-] (ASCII word
characters, dot, hyphen). -/
def isVerChar (c : Char) : Bool :=
  c.isAlphanum ∨ c = '_' ∨ c = '.' ∨ c = '-'

/-- The anchored regex of read_package_manager_field,
name at-sign version with name in [a-zA-Z]+ and version in [\w.\-]+: the
string must contain exactly one at-sign splitting it into the two
non-empty groups. Returns the captured (name, version) on a match. -/
def parsePMField (s : String) : Option (String × String) :=
  match splitOnChar '@' s.data with
  | [nm, ver] =>
      if nm ≠ [] ∧ nm.all isAsciiAlpha ∧ ver ≠ [] ∧ ver.all isVerChar then
        some (⟨nm⟩, ⟨ver⟩)
      else none
  | _ => none

/-- The manager-name mapping shared by the packageManager field: pnpm, npm,
bun map directly, yarn splits on version 2.0.0, anything else is Unknown. -/
def mapFieldName (name ver : String) : PM :=
  if name = "pnpm" then .pnpm
  else if name = "npm" then .npm
  else if name = "bun" then .bun
  else if name = "yarn" then
    if is_semver_gte ver 2 0 0 then .yarnBerry else .yarnClassic
  else .unknown

/-- package_manager.rs read_package_manager_field, with the package.json
read/parse abstracted to the optional field value (none stands for an
absent manifest field, an unreadable file or bad JSON; every such case is
an Err at the detect level and falls through). -/
def read_package_manager_field (field : Option String) :
    Except Unit (PM × Option String) :=
  match field with
  | some s =>
      match parsePMField s with
      | some (nm, ver) => .ok (mapFieldName (lowerStr nm) ver, some ver)
      | none => .error ()
  | none => .error ()

/-- package_manager.rs parse_user_agent: take the first whitespace token,
require a slash, split it on slashes into name and version, map known
names (yarn splitting on 2.0.0), reject unknown names. -/
def parse_user_agent (ua : String) : Option (PM × Option String) :=
  let parts := (splitOnChar ' ' ua.data).filter (· ≠ [])
  match parts.head? with
  | none => none
  | some first =>
      if first.contains '/' then
        let pieces := splitOnChar '/' first
        let name := lowerStr ⟨pieces.headD []⟩
        match pieces.get? 1 with
        | none => none
        | some verL =>
            let ver : Option String := some ⟨verL⟩
            if name = "pnpm" then some (.pnpm, ver)
            else if name = "yarn" then
              some ((if is_semver_gte ⟨verL⟩ 2 0 0 then .yarnBerry
                     else .yarnClassic), ver)
            else if name = "npm" then some (.npm, ver)
            else if name = "bun" then some (.bun, ver)
            else none
      else none

/-- The filesystem facts the detection chain reads at the project root.
lockMtime gives the modification time of a lockfile name, none when the
file does not exist. -/
structure ProjectEnv where
  userAgent : Option String
  packageManagerField : Option String
  yarnArtifact : Option String
  pnpmArtifact : Option String
  lockMtime : String → Option Nat

/-- The fixed lockfile table of pick_by_lockfiles, in source order. -/
def lockfileTable : List (PM × String) :=
  [(.yarnClassic, "yarn.lock"), (.pnpm, "pnpm-lock.yaml"),
   (.npm, "package-lock.json"), (.bun, "bun.lockb")]

/-- The existing lockfile candidates with their modification times. -/
def lockCandidates (env : ProjectEnv) : List (PM × String × Nat) :=
  lockfileTable.filterMap
    (fun e => (env.lockMtime e.2).map (fun t => (e.1, e.2, t)))

/-- Stable ascending insertion into a mtime-sorted candidate list (the
stable sort_by_key of pick_by_lockfiles). -/
def insertByMtime (x : PM × String × Nat) :
    List (PM × String × Nat) → List (PM × String × Nat)
  | [] => [x]
  | y :: t => if x.2.2 ≤ y.2.2 then x :: y :: t else y :: insertByMtime x t

/-- Stable sort by mtime (Vec::sort_by_key is a stable ascending sort). -/
def sortByMtime : List (PM × String × Nat) → List (PM × String × Nat)
  | [] => []
  | x :: t => insertByMtime x (sortByMtime t)

/-- package_manager.rs pick_by_lockfiles: collect existing lockfiles, sort
stably by modification time, take the last (the most recent, ties going to
the latest entry of the table order). -/
def pick_by_lockfiles (env : ProjectEnv) : Option Detection :=
  let candidates := lockCandidates env
  if candidates = [] then none
  else
    match (sortByMtime candidates).getLast? with
    | some c => some ⟨c.1, none, .lockfile c.2.1⟩
    | none => none

/-- package_manager.rs detect_package_manager, given a found project root:
user agent, then the manifest packageManager field, then yarn artifacts,
then the pnpm workspace file, then the lockfile tie-break, then the
npm/heuristic fallback. -/
def detect_package_manager (env : ProjectEnv) : Detection :=
  match env.userAgent with
  | some ua =>
      match parse_user_agent ua with
      | some (pm, ver) => ⟨pm, ver, .userAgent ua⟩
      | none => detectAfterUA env
  | none => detectAfterUA env
where
  /-- Steps 1-4 of the chain (everything after the user-agent probe). -/
  detectAfterUA (env : ProjectEnv) : Detection :=
    match read_package_manager_field env.packageManagerField with
    | .ok (pm, ver) => ⟨pm, ver, .packageJsonField⟩
    | .error _ =>
        match env.yarnArtifact with
        | some p => ⟨.yarnBerry, none, .yarnArtifacts p⟩
        | none =>
            match env.pnpmArtifact with
            | some p => ⟨.pnpm, none, .pnpmArtifacts p⟩
            | none =>
                match pick_by_lockfiles env with
                | some d => d
                | none => ⟨.npm, none, .heuristic⟩

/-! ## src/config.rs: tsconfig parsing data model and the extends merge -/

/-- config.rs CompilerOptions: the optional paths table (a map modelled as
an association list whose order mirrors map iteration; lookups ignore the
order) and the optional baseUrl. -/
structure CompilerOptions where
  paths : Option (List (String × List String))
  baseUrl : Option String
deriving Repr, DecidableEq

/-- config.rs TsConfig. -/
structure TsConfig where
  extends' : Option String
  compilerOptions : Option CompilerOptions
deriving Repr, DecidableEq

/-- Association-list lookup standing in for HashMap::get / contains_key. -/
def lookupA {α : Type} : List (String × α) → String → Option α
  | [], _ => none
  | (k, v) :: t, q => if k = q then some v else lookupA t q

/-- HashMap::contains_key over the association-list model. -/
def containsA {α : Type} (m : List (String × α)) (q : String) : Bool :=
  (lookupA m q).isSome

/-- The paths-merging loop of resolve_tsconfig_with_extends: for every
entry of the extended (parent) table, entry(key).or_insert(value) adds it
only when the child table has no entry for that key. -/
def insertMissing (cur ext : List (String × List String)) :
    List (String × List String) :=
  ext.foldl (fun m kv => if containsA m kv.1 then m else m ++ [kv]) cur

/-- The merge block of config.rs resolve_tsconfig_with_extends (lines
304-322): when the extended config carried compiler options, merge its
paths underneath the child's (child wins per key; a child without a paths
table starts from the empty table via get_or_insert_with) and take its
base_url only when the child declares none; a child without compiler
options adopts the parent's wholesale. -/
def mergeExtended (config : TsConfig) (extendedCO : Option CompilerOptions) :
    TsConfig :=
  match extendedCO with
  | none => config
  | some eco =>
      match config.compilerOptions with
      | some co =>
          let paths' :=
            match eco.paths with
            | some epaths => some (insertMissing (co.paths.getD []) epaths)
            | none => co.paths
          let base' := if co.baseUrl = none then eco.baseUrl else co.baseUrl
          { config with compilerOptions := some ⟨paths', base'⟩ }
      | none => { config with compilerOptions := some eco }

/-- config.rs resolve_tsconfig_with_extends: parse the file (the filesystem
and the json5 parse are abstracted into a map from file names to parsed
configs; none stands for a missing or unreadable file, which is an error at
the entry file and a silent skip for an extended file), recursively resolve
the extended file when it exists, and merge. The extends reference is
resolved relative to the current file's directory in the source; the model
uses the reference string itself as the key. Fuel bounds the unguarded
recursion (the source has no cycle protection). -/
def resolveTsconfigWithExtends (files : String → Option TsConfig) :
    Nat → String → Option TsConfig
  | 0, _ => none
  | fuel + 1, path =>
      match files path with
      | none => none
      | some config =>
          match config.extends' with
          | none => some config
          | some ext =>
              if (files ext).isSome then
                match resolveTsconfigWithExtends files fuel ext with
                | some extended =>
                    some (mergeExtended config extended.compilerOptions)
                | none => none
              else some config

/-! ## src/installer.rs: installer state and alias resolution -/

/-- config.rs AliasesConfig. -/
structure AliasesConfig where
  components : String
  utils : String
  ui : Option String
  hooks : Option String
  lib : Option String
deriving Repr, DecidableEq

/-- config.rs TypeScriptConfig: a boolean or an object naming a config
file. -/
inductive TypeScriptConfig where
  | boolean (b : Bool)
  | object (config : String)
deriving Repr, DecidableEq

/-- config.rs ResolvedPaths: the resolved alias table (association list in
map-iteration order) and the base url. -/
structure ResolvedPaths where
  paths : List (String × String)
  baseUrl : String
deriving Repr, DecidableEq

/-- The fields of config.rs Config that the installer functions under
study read (tailwind, style, schema and the registry table feed only the
HTTP collaborator and the serializer). -/
structure InstallerConfig where
  aliases : AliasesConfig
  typescript : Option TypeScriptConfig
deriving Repr, DecidableEq

/-- installer.rs ComponentInstaller: its configuration and the resolved
TypeScript paths (the registry manager is the fetch oracle passed to the
install functions; the detected package manager only feeds the external
subprocess step, which is outside this embedding). -/
structure Installer where
  config : InstallerConfig
  typescriptPaths : Option ResolvedPaths
deriving Repr, DecidableEq

/-- installer.rs ComponentContext. -/
structure ComponentContext where
  name : String
  componentType : Option String
  registry : Option String
deriving Repr, DecidableEq

/-- installer.rs create_component_context. -/
def createComponentContext (c : Component) : ComponentContext :=
  ⟨c.name, c.componentType, c.registry⟩

/-- installer.rs get_alias_for_component_type. -/
def getAliasForComponentType (inst : Installer) (t : Option String) : String :=
  match t with
  | some s =>
      if s = "registry:hook" then
        inst.config.aliases.hooks.getD inst.config.aliases.components
      else if s = "registry:ui" then
        inst.config.aliases.ui.getD inst.config.aliases.components
      else if s = "registry:util" then inst.config.aliases.utils
      else if s = "registry:lib" then
        inst.config.aliases.lib.getD inst.config.aliases.components
      else inst.config.aliases.components
  | none => inst.config.aliases.components

/-- installer.rs resolve_path_manually: replace a $lib token with the
configured lib alias (default src/lib); otherwise pass the alias through
verbatim. -/
def resolve_path_manually (inst : Installer) (uiPath : String) : String :=
  if strContainsSub uiPath "$lib" then
    match inst.config.aliases.lib with
    | some libPath => rustReplace uiPath "$lib" libPath
    | none => rustReplace uiPath "$lib" "src/lib"
  else uiPath

/-- Rust str::strip_prefix(...).unwrap_or(""). -/
def stripPrefixOr (s pre : String) : String :=
  if strStartsWith s pre then ⟨s.data.drop pre.data.length⟩ else ""

/-- installer.rs resolve_path_with_typescript: first alias of the table
that prefixes the path wins; the remainder (leading slashes trimmed) is
appended to its mapped filesystem path; no match falls back to manual
resolution. -/
def resolve_path_with_typescript (inst : Installer) (uiPath : String)
    (tsPaths : List (String × String)) : String :=
  match tsPaths.find? (fun av => strStartsWith uiPath av.1) with
  | some av =>
      let remaining := (stripPrefixOr uiPath av.1).data.dropWhile (· = '/')
      if remaining = [] then av.2
      else av.2 ++ "/" ++ (⟨remaining⟩ : String)
  | none => resolve_path_manually inst uiPath

/-- The alias-root resolution shared by resolve_file_path,
is_component_installed and get_installed_components: TypeScript mappings
when resolved, manual fallback otherwise. -/
def resolveAliasRootPath (inst : Installer) (aliasPath : String) : String :=
  match inst.typescriptPaths with
  | some tp => resolve_path_with_typescript inst aliasPath tp.paths
  | none => resolve_path_manually inst aliasPath

/-- The alias root a context resolves to inside resolve_file_path. -/
def resolveAliasRoot (inst : Installer) (ctx : ComponentContext) : String :=
  resolveAliasRootPath inst (getAliasForComponentType inst ctx.componentType)

/-- installer.rs resolve_file_path: resolve the context's alias root, strip
a duplicate leading ui/ segment for registry:ui components whose alias
root already ends in /ui, and join. (The final join under the current
working directory prefixes every resolved path uniformly and is omitted.) -/
def resolve_file_path (inst : Installer) (target : String)
    (ctx : ComponentContext) : String :=
  let resolved := resolveAliasRoot inst ctx
  let normalizedTarget :=
    if ctx.componentType = some "registry:ui" ∧ strStartsWith target "ui/" ∧
        strEndsWith resolved "/ui" then
      (⟨target.data.drop 3⟩ : String)
    else target
  resolved ++ "/" ++ normalizedTarget

/-! ## src/installer.rs: the placeholder processor -/

/-- installer.rs resolve_import_path_with_typescript: keep the alias form
when any TypeScript alias prefixes it, empty string otherwise. -/
def resolve_import_path_with_typescript (importPath : String)
    (tsPaths : List (String × String)) : String :=
  if tsPaths.any (fun av => strStartsWith importPath av.1) then importPath
  else ""

/-- installer.rs resolve_import_path_manually: always some — a path
starting with $lib has the token replaced (or kept when no lib alias is
configured), anything else passes through. -/
def resolve_import_path_manually (inst : Installer) (importPath : String) :
    Option String :=
  if strStartsWith importPath "$lib" then
    match inst.config.aliases.lib with
    | some libPath => some (rustReplace importPath "$lib" libPath)
    | none => some importPath
  else some importPath

/-- installer.rs get_utils_import_path. -/
def getUtilsImportPath (inst : Installer) : Option String :=
  let utilsPath := inst.config.aliases.utils
  match inst.typescriptPaths with
  | some tp =>
      let resolved := resolve_import_path_with_typescript utilsPath tp.paths
      if resolved ≠ "" then some resolved
      else resolve_import_path_manually inst utilsPath
  | none => resolve_import_path_manually inst utilsPath

/-- installer.rs get_components_import_path_with_context. -/
def getComponentsImportPathWithContext (inst : Installer)
    (ctx : Option ComponentContext) : Option String :=
  let componentsPath :=
    match ctx with
    | some c => getAliasForComponentType inst c.componentType
    | none => inst.config.aliases.components
  match inst.typescriptPaths with
  | some tp =>
      let resolved := resolve_import_path_with_typescript componentsPath tp.paths
      if resolved ≠ "" then some resolved
      else resolve_import_path_manually inst componentsPath
  | none => resolve_import_path_manually inst componentsPath

/-- installer.rs get_hooks_import_path_with_context. -/
def getHooksImportPathWithContext (inst : Installer)
    (ctx : Option ComponentContext) : Option String :=
  let hooksPath :=
    match ctx with
    | some c =>
        if c.componentType = some "registry:hook" then
          inst.config.aliases.hooks.getD inst.config.aliases.components
        else getAliasForComponentType inst c.componentType
    | none => inst.config.aliases.hooks.getD inst.config.aliases.components
  match inst.typescriptPaths with
  | some tp =>
      let resolved := resolve_import_path_with_typescript hooksPath tp.paths
      if resolved ≠ "" then some resolved
      else resolve_import_path_manually inst hooksPath
  | none => resolve_import_path_manually inst hooksPath

/-- installer.rs get_lib_import_path_with_context (the fallback keeps the
original alias rather than resolving it manually). -/
def getLibImportPathWithContext (inst : Installer)
    (ctx : Option ComponentContext) : Option String :=
  let libPath :=
    match ctx with
    | some c =>
        if c.componentType = some "registry:lib" then
          inst.config.aliases.lib.getD inst.config.aliases.components
        else getAliasForComponentType inst c.componentType
    | none => inst.config.aliases.lib.getD inst.config.aliases.components
  match inst.typescriptPaths with
  | some tp =>
      let resolved := resolve_import_path_with_typescript libPath tp.paths
      if resolved ≠ "" then some resolved else some libPath
  | none => some libPath

/-- installer.rs is_typescript_enabled. -/
def isTypescriptEnabled (inst : Installer) : Bool :=
  match inst.config.typescript with
  | some (.boolean true) => true
  | some (.object _) => true
  | _ => false

/-- A quote character as matched by the regex class of quote marks. -/
def isQuote (c : Char) : Bool := c = '"' ∨ c = '\''

/-- The regex word class backslash-w (ASCII), used for the word boundary of
the placeholder pattern. -/
def isWordChar (c : Char) : Bool := c.isAlphanum ∨ c = '_'

/-- The capture class of the placeholder pattern: upper-case letters and
underscores. -/
def isCapsChar (c : Char) : Bool := ('A' ≤ c ∧ c ≤ 'Z') ∨ c = '_'

/-- Generic driver for Regex::replace_all with leftmost matching: try the
matcher at every position from the left, emit its replacement and resume
after the match, otherwise keep the character. Matchers return the
replacement for the consumed match and the strictly shorter remainder;
the fuel (initialised to the list length by scanReplace below) therefore
never runs out and only makes the recursion structural. -/
def scanReplaceF (m : List Char → Option (List Char × List Char)) :
    Nat → List Char → List Char
  | _, [] => []
  | 0, l => l
  | fuel + 1, c :: rest =>
      match m (c :: rest) with
      | some (rep, after) => rep ++ scanReplaceF m fuel after
      | none => c :: scanReplaceF m fuel rest

/-- The replace_all driver at full fuel. -/
def scanReplace (m : List Char → Option (List Char × List Char))
    (l : List Char) : List Char :=
  scanReplaceF m l.length l

/-- Matcher for the static import/export patterns 1 and 2 of
remove_js_extensions_from_imports, parameterised by the leading keyword:
keyword, one or more whitespace characters, any run of non-quote
characters, a quote, a non-empty specifier, a literal .js, a quote. The
replacement drops only the .js (groups one to three re-emitted). The
backtracking regex is deterministic here because quotes can appear in no
character class, so each greedy run is the maximal quote-free run. -/
def matchStaticImportAt (kw : List Char) (l : List Char) :
    Option (List Char × List Char) :=
  if kw.isPrefixOf l then
    let l1 := l.drop kw.length
    if (l1.head?.map isWs).getD false then
      let span := l1.takeWhile (fun c => ¬ isQuote c)
      match l1.drop span.length with
      | q1 :: l3 =>
          let inner := l3.takeWhile (fun c => ¬ isQuote c)
          match l3.drop inner.length with
          | q2 :: l5 =>
              if inner.length ≥ 4 ∧
                  inner.drop (inner.length - 3) = ['.', 'j', 's'] then
                let g := inner.take (inner.length - 3)
                some (kw ++ span ++ [q1] ++ g ++ [q2], l5)
              else none
          | [] => none
      | [] => none
    else none
  else none

/-- Matcher for the dynamic-import pattern 3: import, optional whitespace,
an opening parenthesis, optional whitespace, a quoted non-empty specifier
ending in .js, optional whitespace, a closing parenthesis. -/
def matchDynamicImportAt (l : List Char) :
    Option (List Char × List Char) :=
  let kw := ("import").data
  if kw.isPrefixOf l then
    let l1 := l.drop kw.length
    let ws1 := l1.takeWhile isWs
    match l1.drop ws1.length with
    | '(' :: l3 =>
        let ws2 := l3.takeWhile isWs
        match l3.drop ws2.length with
        | q1 :: l5 =>
            if isQuote q1 then
              let inner := l5.takeWhile (fun c => ¬ isQuote c)
              match l5.drop inner.length with
              | q2 :: l7 =>
                  if inner.length ≥ 4 ∧
                      inner.drop (inner.length - 3) = ['.', 'j', 's'] then
                    let g := inner.take (inner.length - 3)
                    let ws3 := l7.takeWhile isWs
                    match l7.drop ws3.length with
                    | ')' :: l9 =>
                        some (kw ++ ws1 ++ ['('] ++ ws2 ++ [q1] ++ g ++
                          [q2] ++ ws3 ++ [')'], l9)
                    | _ => none
                  else none
              | [] => none
            else none
        | _ => none
    | _ => none
  else none

/-- Matcher for the placeholder pattern 4: a dollar sign, one or more
capital letters or underscores, a dollar sign, a literal .js, a word
boundary. The replacement string dollar-dollar-one-dollar of the source
expands under the regex crate's rules (dollar-dollar is an escaped literal
dollar, the trailing lone dollar is literal, the 1 in between is a plain
character) to the literal three-character text dollar-one-dollar. -/
def matchPlaceholderJsAt (l : List Char) :
    Option (List Char × List Char) :=
  match l with
  | '$' :: l1 =>
      let caps := l1.takeWhile isCapsChar
      if caps ≠ [] then
        match l1.drop caps.length with
        | '$' :: '.' :: 'j' :: 's' :: l3 =>
            if (l3.head?.map isWordChar).getD false then none
            else some (("$1$").data, l3)
        | _ => none
      else none
  | _ => none

/-- installer.rs remove_js_extensions_from_imports: the four replace_all
passes in source order (static imports, static exports, dynamic imports,
placeholder tokens). -/
def remove_js_extensions_from_imports (content : String) : String :=
  let p1 := scanReplace (matchStaticImportAt ("import").data) content.data
  let p2 := scanReplace (matchStaticImportAt ("export").data) p1
  let p3 := scanReplace matchDynamicImportAt p2
  let p4 := scanReplace matchPlaceholderJsAt p3
  ⟨p4⟩

/-- installer.rs process_placeholders: substitute the four tokens in source
order (each skipped only when its import-path helper yields none), then,
only when TypeScript is enabled, run the import-extension cleanup. The
Rust function returns Result but has no error path; the model returns the
string. -/
def process_placeholders (inst : Installer) (content : String)
    (ctx : Option ComponentContext) : String :=
  let c1 :=
    match getUtilsImportPath inst with
    | some u => rustReplace content "$UTILS$" u
    | none => content
  let c2 :=
    match getComponentsImportPathWithContext inst ctx with
    | some p => rustReplace c1 "$COMPONENTS$" p
    | none => c1
  let c3 :=
    match getHooksImportPathWithContext inst ctx with
    | some p => rustReplace c2 "$HOOKS$" p
    | none => c2
  let c4 :=
    match getLibImportPathWithContext inst ctx with
    | some p => rustReplace c3 "$LIB$" p
    | none => c3
  if isTypescriptEnabled inst then remove_js_extensions_from_imports c4
  else c4

/-- Follows the words of the spec for claim C3 (NOT the source): the
cleanup of a placeholder token immediately followed by a literal .js fires
BEFORE substitution removes the token text (stripping the .js while the
template is raw); substitution and the three import-specifier passes then
proceed as in the source. Defined only to be compared against
process_placeholders. -/
def processPlaceholdersSpecOrder (inst : Installer) (content : String)
    (ctx : Option ComponentContext) : String :=
  let tokens := ["$UTILS$", "$COMPONENTS$", "$HOOKS$", "$LIB$"]
  let c0 :=
    if isTypescriptEnabled inst then
      tokens.foldl (fun s tok => rustReplace s (tok ++ ".js") tok) content
    else content
  let c1 :=
    match getUtilsImportPath inst with
    | some u => rustReplace c0 "$UTILS$" u
    | none => c0
  let c2 :=
    match getComponentsImportPathWithContext inst ctx with
    | some p => rustReplace c1 "$COMPONENTS$" p
    | none => c1
  let c3 :=
    match getHooksImportPathWithContext inst ctx with
    | some p => rustReplace c2 "$HOOKS$" p
    | none => c2
  let c4 :=
    match getLibImportPathWithContext inst ctx with
    | some p => rustReplace c3 "$LIB$" p
    | none => c3
  if isTypescriptEnabled inst then
    let p1 := scanReplace (matchStaticImportAt ("import").data) c4.data
    let p2 := scanReplace (matchStaticImportAt ("export").data) p1
    let p3 := scanReplace matchDynamicImportAt p2
    (⟨p3⟩ : String)
  else c4

/-! ## src/installer.rs: filesystem state, file installation, component
installation -/

/-- The project filesystem state the installer mutates: regular files
(path to content) and existing directories. -/
structure FS where
  files : List (String × String)
  dirs : List String
deriving Repr, DecidableEq

/-- fs::read_to_string as a lookup (none: missing file or a directory). -/
def fsReadFile (fs : FS) (p : String) : Option String := lookupA fs.files p

/-- Path exists as a regular file. -/
def fsIsFile (fs : FS) (p : String) : Bool := (fsReadFile fs p).isSome

/-- Path exists as a directory. -/
def fsIsDir (fs : FS) (p : String) : Bool := fs.dirs.contains p

/-- Path::exists: a file or a directory is present. -/
def fsExists (fs : FS) (p : String) : Bool := fsIsFile fs p || fsIsDir fs p

/-- fs::write: create or overwrite the file. -/
def fsWrite (fs : FS) (p c : String) : FS :=
  ⟨(p, c) :: fs.files.filter (fun e => e.1 ≠ p), fs.dirs⟩

/-- The directory chain fs::create_dir_all(target.parent()) creates: every
proper prefix of the path that ends just before a slash. -/
def ancestorsOf (p : String) : List String :=
  (List.range p.data.length).filterMap
    (fun i => if p.data.get? i = some '/' then
        some ((⟨p.data.take i⟩ : String)) else none)

/-- Record the parent-directory chain of a target path as created. -/
def fsMkdirAll (fs : FS) (p : String) : FS :=
  ⟨fs.files, ancestorsOf p ++ fs.dirs⟩

/-- installer.rs error cases reachable in this embedding (anyhow messages
collapsed to their cases). -/
inductive InstallError where
  | notFound (name : String)
  | alreadyExists (path : String)
deriving Repr, DecidableEq

/-- installer.rs install_file: resolve the target, fail with AlreadyExists
when it exists and force is off (before any write), otherwise create the
parent directories, process placeholders and write. -/
def install_file (inst : Installer) (file : ComponentFile)
    (ctx : ComponentContext) (force : Bool) (fs : FS) :
    Except InstallError FS :=
  let targetPath := resolve_file_path inst file.getTargetPath ctx
  if fsExists fs targetPath ∧ ¬ force then
    .error (.alreadyExists targetPath)
  else
    let fs1 := fsMkdirAll fs targetPath
    let processed := process_placeholders inst file.content (some ctx)
    .ok (fsWrite fs1 targetPath processed)

/-- The file loop of installer.rs install_component_files: install each
file in declared order; the first error aborts, and the error carries the
filesystem as it stood at that moment (real writes are not rolled back). -/
def installFilesLoop (inst : Installer) (ctx : ComponentContext)
    (force : Bool) : List ComponentFile → FS → Except (InstallError × FS) FS
  | [], fs => .ok fs
  | f :: rest, fs =>
      match install_file inst f ctx force fs with
      | .error e => .error (e, fs)
      | .ok fs' => installFilesLoop inst ctx force rest fs'

/-- installer.rs install_component_files. -/
def install_component_files (inst : Installer) (comp : Component)
    (ctx : ComponentContext) (force : Bool) (fs : FS) :
    Except (InstallError × FS) FS :=
  installFilesLoop inst ctx force comp.files fs

/-- The unconditional effect of one successful install_file call: parent
directories then the processed write. -/
def writeFileUnchecked (inst : Installer) (ctx : ComponentContext) (fs : FS)
    (f : ComponentFile) : FS :=
  let targetPath := resolve_file_path inst f.getTargetPath ctx
  fsWrite (fsMkdirAll fs targetPath) targetPath
    (process_placeholders inst f.content (some ctx))

/-- The filesystem after a conflict-free prefix of the file loop. -/
def applyWrites (inst : Installer) (ctx : ComponentContext) (fs : FS)
    (files : List ComponentFile) : FS :=
  files.foldl (writeFileUnchecked inst ctx) fs

/-- installer.rs install_component_inner at skip_deps = true: fetch the
component and install its files; no dependency recursion happens in this
case, so the definition is non-recursive. The returned trace lists each
completed component install as (name, the skip_deps flag it ran with); the
package-ecosystem dependency step is an external subprocess effect outside
this embedding. -/
def installComponentSkipDeps (fetch : String → Option Component)
    (inst : Installer) (name : String) (force : Bool) (fs : FS) :
    Except (InstallError × FS) (List (String × Bool) × FS) :=
  match fetch name with
  | none => .error (.notFound name, fs)
  | some comp =>
      match install_component_files inst comp (createComponentContext comp)
          force fs with
      | .error e => .error e
      | .ok fs' => .ok ([(name, true)], fs')

/-- The dependency loop of install_component_inner: each declared registry
dependency is installed in list order with skip_deps forced to true (the
source's recursive call; its body is installComponentSkipDeps because the
recursion bottoms out immediately at skip_deps = true). -/
def installDepsLoop (fetch : String → Option Component) (inst : Installer)
    (force : Bool) : List String → FS →
    Except (InstallError × FS) (List (String × Bool) × FS)
  | [], fs => .ok ([], fs)
  | d :: rest, fs =>
      match installComponentSkipDeps fetch inst d force fs with
      | .error e => .error e
      | .ok (evs, fs') =>
          match installDepsLoop fetch inst force rest fs' with
          | .error e => .error e
          | .ok (evs', fs'') => .ok (evs ++ evs', fs'')

/-- installer.rs install_component_inner: fetch, recurse into registry
dependencies unless skipped (always with skip_deps = true), then install
the files. In the source the recursion always passes true, and a true call
performs no recursive call, so the depth is at most one; the theorem
install_inner_true_eq_skip below checks the factoring. -/
def install_component_inner (fetch : String → Option Component)
    (inst : Installer) (name : String) (force skipDeps : Bool) (fs : FS) :
    Except (InstallError × FS) (List (String × Bool) × FS) :=
  match fetch name with
  | none => .error (.notFound name, fs)
  | some comp =>
      let depsRes :=
        if skipDeps then .ok ([], fs)
        else installDepsLoop fetch inst force
          (comp.registryDependencies.getD []) fs
      match depsRes with
      | .error e => .error e
      | .ok (evs, fs1) =>
          match install_component_files inst comp
              (createComponentContext comp) force fs1 with
          | .error e => .error e
          | .ok fs2 => .ok (evs ++ [(name, skipDeps)], fs2)

/-! ## src/installer.rs: installed-component scan and outdated check -/

/-- The shape of a read_dir entry that the scan inspects. -/
inductive DirEntryKind where
  | dir
  | file
  | other
deriving Repr, DecidableEq

/-- A directory entry of the resolved UI components directory. -/
structure DirEntry where
  name : String
  kind : DirEntryKind
deriving Repr, DecidableEq

/-- One iteration of the get_installed_components loop: a non-hidden
subdirectory (not named index.ts or index.js) is pushed by name; a
non-hidden file that is not a .d.ts, .map, index.ts or index.js is pushed
under the piece of its name before the first dot when non-empty; anything
else is skipped. -/
def scanStep (acc : List String) (e : DirEntry) : List String :=
  match e.kind with
  | .dir =>
      if ¬ strStartsWith e.name "." ∧ e.name ≠ "index.ts" ∧
          e.name ≠ "index.js" then acc ++ [e.name]
      else acc
  | .file =>
      if ¬ strStartsWith e.name "." ∧ ¬ strEndsWith e.name ".d.ts" ∧
          ¬ strEndsWith e.name ".map" ∧ e.name ≠ "index.ts" ∧
          e.name ≠ "index.js" then
        let componentName : String := ⟨(splitOnChar '.' e.name.data).headD []⟩
        if componentName ≠ "" then acc ++ [componentName] else acc
      else acc
  | .other => acc

/-- Byte-order comparison of Rust String Ord (UTF-8 byte order equals
scalar-value order). -/
def charListLe : List Char → List Char → Bool
  | [], _ => true
  | _ :: _, [] => false
  | a :: as, b :: bs =>
      if a.toNat < b.toNat then true
      else if b.toNat < a.toNat then false
      else charListLe as bs

/-- Rust String less-or-equal. -/
def strLe (a b : String) : Bool := charListLe a.data b.data

/-- Stable ascending insertion for Vec::sort. -/
def insertStr (x : String) : List String → List String
  | [] => [x]
  | y :: t => if strLe x y then x :: y :: t else y :: insertStr x t

/-- Vec::sort modelled as a stable insertion sort. -/
def sortStrs : List String → List String
  | [] => []
  | x :: t => insertStr x (sortStrs t)

/-- The tail of Vec::dedup: drop every element equal to the previous kept
one. -/
def dedupGo (prev : String) : List String → List String
  | [] => []
  | b :: t => if prev = b then dedupGo prev t else b :: dedupGo b t

/-- Vec::dedup: remove consecutive duplicates. -/
def rustDedup : List String → List String
  | [] => []
  | a :: t => a :: dedupGo a t

/-- installer.rs get_installed_components given the read_dir listing of
the resolved UI components directory: scan, sort, dedup. -/
def get_installed_components (entries : List DirEntry) : List String :=
  rustDedup (sortStrs (entries.foldl scanStep []))

/-- The resolved UI components directory used by is_component_installed and
get_installed_components: the ui alias (the components alias when unset),
resolved like every other alias root. -/
def uiComponentsDir (inst : Installer) : String :=
  resolveAliasRootPath inst
    (inst.config.aliases.ui.getD inst.config.aliases.components)

/-- The extension probe list of is_component_installed. -/
def installedExtensions : List String :=
  ["tsx", "ts", "jsx", "js", "svelte", "vue"]

/-- installer.rs is_component_installed: a directory named after the
component under the resolved UI directory, or a file named after it with
one of the probe extensions. -/
def is_component_installed (inst : Installer) (fs : FS) (name : String) :
    Bool :=
  let componentsDir := uiComponentsDir inst
  fsIsDir fs (componentsDir ++ "/" ++ name) ||
    installedExtensions.any
      (fun ext => fsIsFile fs (componentsDir ++ "/" ++ name ++ "." ++ ext))

/-- Rust str::lines: split on newline, drop a final empty piece produced by
a trailing newline, strip one trailing carriage return per line. -/
def rustLines (s : String) : List String :=
  let pieces := splitOnChar '\n' s.data
  let pieces := if pieces.getLast? = some [] then pieces.dropLast else pieces
  pieces.map (fun l => (⟨if l.getLast? = some '\r' then l.dropLast else l⟩ :
    String))

/-- Vec::join as used on the normalized line list. -/
def joinWith (sep : String) : List String → String
  | [] => ""
  | [a] => a
  | a :: rest => a ++ sep ++ joinWith sep (rest)

/-- installer.rs normalize_content: process placeholders with no context
(the Rust Result has no error path, so unwrap_or_else never fires), then
trim every line and drop the blank ones. -/
def normalize_content (inst : Installer) (content : String) : String :=
  let processed := process_placeholders inst content none
  let lines := (rustLines processed).map
    (fun l => (⟨trimChars l.data⟩ : String))
  joinWith "\n" (lines.filter (fun l => l ≠ ""))

/-- The per-file loop of is_component_outdated: a missing path, an
unreadable path, or normalized contents that differ mark the component
outdated at the first offending file. -/
def outdatedFilesLoop (inst : Installer) (fs : FS) (ctx : ComponentContext) :
    List ComponentFile → Bool
  | [] => false
  | f :: rest =>
      let localPath := resolve_file_path inst f.getTargetPath ctx
      if ¬ fsExists fs localPath then true
      else
        match fsReadFile fs localPath with
        | none => true
        | some localContent =>
            if normalize_content inst localContent ≠
                normalize_content inst f.content then true
            else outdatedFilesLoop inst fs ctx rest

/-- installer.rs is_component_outdated: false when not installed; the
registry re-fetch is the fetchRes oracle argument and a failed fetch
(none) yields false; otherwise diff every declared file. -/
def is_component_outdated (inst : Installer) (fs : FS) (name : String)
    (fetchRes : Option Component) : Bool :=
  if ¬ is_component_installed inst fs name then false
  else
    match fetchRes with
    | none => false
    | some comp =>
        outdatedFilesLoop inst fs (createComponentContext comp) comp.files

/-! ## Theorems. Helper lemmas come first, then one theorem (plus witness
or counterexample) per claim. -/

/-- Appending the empty string is the identity. -/
theorem strAppendEmptyHelper (s : String) : s ++ "" = s := by
  cases s with
  | mk l => exact congrArg String.mk (List.append_nil l)

/-- The simplify_path step keeps the accumulator free of CurDir and
ParentDir entries. -/
theorem simplifyStep_inv (acc : List PathComp) (c : PathComp)
    (hc : PathComp.curDir ∉ acc) (hp : PathComp.parentDir ∉ acc) :
    PathComp.curDir ∉ simplifyStep acc c ∧
      PathComp.parentDir ∉ simplifyStep acc c := by
  cases c with
  | normal s => simp [simplifyStep, hc, hp]
  | parentDir =>
      refine ⟨fun h => hc ?_, fun h => hp ?_⟩ <;>
        exact (List.dropLast_sublist acc).mem h
  | curDir => exact ⟨hc, hp⟩
  | rootDir => simp [simplifyStep]
  | pfx s => simp [simplifyStep]

/-- The simplify_path loop keeps the accumulator free of CurDir and
ParentDir entries. -/
theorem simplifyFold_inv (comps : List PathComp) :
    ∀ acc : List PathComp, PathComp.curDir ∉ acc →
      PathComp.parentDir ∉ acc →
      PathComp.curDir ∉ comps.foldl simplifyStep acc ∧
        PathComp.parentDir ∉ comps.foldl simplifyStep acc := by
  induction comps with
  | nil => intro acc hc hp; exact ⟨hc, hp⟩
  | cons c rest ih =>
      intro acc hc hp
      have h := simplifyStep_inv acc c hc hp
      simpa using ih (simplifyStep acc c) h.1 h.2

/-- C10: config.rs simplify_path is total and its loop output never
contains a current-dir or parent-dir component; the full result is either
that clean component list or, when it is empty, the literal path dot;
current-dir components are skipped, parent-dir components pop the last
accumulated component (a silent no-op when nothing is left, so
a/../../b simplifies to b instead of escaping upward). -/
theorem c10_simplify_path_clean :
    (∀ comps : List PathComp, PathComp.curDir ∉ simplifyLoop comps ∧
      PathComp.parentDir ∉ simplifyLoop comps)
    ∧ (∀ comps : List PathComp, simplify_path comps = [PathComp.curDir] ∨
        (PathComp.curDir ∉ simplify_path comps ∧
          PathComp.parentDir ∉ simplify_path comps))
    ∧ (∀ comps : List PathComp,
        simplifyLoop (comps ++ [PathComp.curDir]) = simplifyLoop comps)
    ∧ (∀ comps : List PathComp,
        simplifyLoop (comps ++ [PathComp.parentDir]) =
          (simplifyLoop comps).dropLast)
    ∧ simplify_path [PathComp.normal "a", PathComp.parentDir,
        PathComp.parentDir, PathComp.normal "b"] = [PathComp.normal "b"]
    ∧ simplify_path [] = [PathComp.curDir] := by
  have hloop : ∀ comps : List PathComp,
      PathComp.curDir ∉ simplifyLoop comps ∧
        PathComp.parentDir ∉ simplifyLoop comps := by
    intro comps
    exact simplifyFold_inv comps [] (by simp) (by simp)
  refine ⟨hloop, ?_, ?_, ?_, by decide, by decide⟩
  · intro comps
    by_cases h : simplifyLoop comps = []
    · left; simp [simplify_path, h]
    · right; simpa [simplify_path, h] using hloop comps
  · intro comps
    simp [simplifyLoop, List.foldl_append, simplifyStep]
  · intro comps
    simp [simplifyLoop, List.foldl_append, simplifyStep]

/-- C10 witness: the clean-output guarantee applied to a concrete
component list. -/
theorem c10_witness :
    PathComp.curDir ∉ simplifyLoop [PathComp.normal "x", PathComp.parentDir]
    ∧ PathComp.parentDir ∉
        simplifyLoop [PathComp.normal "x", PathComp.parentDir] :=
  c10_simplify_path_clean.1 [PathComp.normal "x", PathComp.parentDir]

/-- C9: registry.rs ComponentFile::get_target_path is total: the target
field wins when present and non-empty, else a present non-empty path
field, else the empty string — and resolve_file_path turns that empty
relative target into the bare alias directory path (root plus a trailing
slash). -/
theorem c9_get_target_path_total (f : ComponentFile) :
    (∀ t, f.target = some t → t ≠ "" → f.getTargetPath = t)
    ∧ ((f.target = none ∨ f.target = some "") →
        ∀ p, f.path = some p → p ≠ "" → f.getTargetPath = p)
    ∧ ((f.target = none ∨ f.target = some "") →
        (f.path = none ∨ f.path = some "") → f.getTargetPath = "")
    ∧ (∀ (inst : Installer) (ctx : ComponentContext), f.getTargetPath = "" →
        resolve_file_path inst f.getTargetPath ctx =
          resolveAliasRoot inst ctx ++ "/") := by
  refine ⟨?_, ?_, ?_, ?_⟩
  · intro t ht hne
    simp [ComponentFile.getTargetPath, ht, hne]
  · intro hcase p hp hpne
    rcases hcase with h | h <;>
      simp [ComponentFile.getTargetPath, h, hp, hpne]
  · intro hcase hpath
    rcases hcase with h | h <;> rcases hpath with h2 | h2 <;>
      simp [ComponentFile.getTargetPath, h, h2]
  · intro inst ctx h0
    rw [h0]
    have hui : strStartsWith "" "ui/" = false := by decide
    simp only [resolve_file_path, hui, Bool.false_eq_true, false_and,
      and_false, if_false]
    exact strAppendEmptyHelper _

/-- C9 witness: a file with neither field resolves to the bare alias
directory. -/
theorem c9_witness :
    (ComponentFile.mk "c" none none none).getTargetPath = ""
    ∧ resolve_file_path
        ⟨⟨⟨"comp", "u", none, none, none⟩, none⟩, none⟩
        (ComponentFile.mk "c" none none none).getTargetPath
        ⟨"c", none, none⟩ = "comp/" := by
  have h := c9_get_target_path_total (ComponentFile.mk "c" none none none)
  have h3 := h.2.2.1 (Or.inl rfl) (Or.inl rfl)
  refine ⟨h3, ?_⟩
  have h4 := h.2.2.2 ⟨⟨⟨"comp", "u", none, none, none⟩, none⟩, none⟩
    ⟨"c", none, none⟩ h3
  rw [h4]
  rfl

/-- Association lookup distributes over append. -/
theorem lookupA_append {α : Type} (m1 m2 : List (String × α)) (k : String) :
    lookupA (m1 ++ m2) k = (lookupA m1 k).orElse (fun _ => lookupA m2 k) := by
  induction m1 with
  | nil => simp [lookupA, Option.orElse]
  | cons kv t ih =>
      by_cases h : kv.1 = k
      · simp [lookupA, h, Option.orElse]
      · simp [lookupA, h, ih]

/-- A listed key is found by the association lookup. -/
theorem lookupA_isSome_of_mem {α : Type} {m : List (String × α)}
    {kv : String × α} (h : kv ∈ m) : (lookupA m kv.1).isSome = true := by
  induction m with
  | nil => cases h
  | cons hd t ih =>
      by_cases heq : hd.1 = kv.1
      · simp [lookupA, heq]
      · rcases List.mem_cons.mp h with h1 | h1
        · exact absurd (congrArg Prod.fst h1.symm) heq
        · simp [lookupA, heq, ih h1]

/-- The or_insert loop of the extends merge seen through lookups: the
child's entry wins per key and the parent's entries fill the gaps. -/
theorem lookup_insertMissing (ext : List (String × List String)) :
    ∀ (cur : List (String × List String)) (k : String),
      lookupA (insertMissing cur ext) k =
        (lookupA cur k).orElse (fun _ => lookupA ext k) := by
  induction ext with
  | nil =>
      intro cur k
      cases h : lookupA cur k <;> simp [insertMissing, lookupA, h, Option.orElse]
  | cons kv ext ih =>
      intro cur k
      have hstep : insertMissing cur (kv :: ext) =
          insertMissing (if containsA cur kv.1 then cur else cur ++ [kv]) ext := by
        simp [insertMissing]
      rw [hstep]
      by_cases hc : containsA cur kv.1
      · rw [if_pos hc, ih cur k]
        by_cases hk : kv.1 = k
        · subst hk
          rcases Option.isSome_iff_exists.mp hc with ⟨v, hv⟩
          simp [hv, lookupA, Option.orElse]
        · cases h : lookupA cur k <;> simp [h, lookupA, hk, Option.orElse]
      · rw [if_neg hc, ih (cur ++ [kv]) k, lookupA_append]
        by_cases hk : kv.1 = k
        · subst hk
          have hnone : lookupA cur kv.1 = none := by
            cases h : lookupA cur kv.1 with
            | none => rfl
            | some v => exact absurd (by simp [containsA, h]) hc
          simp [hnone, lookupA, Option.orElse]
        · cases h : lookupA cur k <;> simp [h, lookupA, hk, Option.orElse]

/-- Inserting entries whose keys are all present is a no-op. -/
theorem insertMissing_noop (ext : List (String × List String)) :
    ∀ m : List (String × List String),
      (∀ kv ∈ ext, containsA m kv.1 = true) → insertMissing m ext = m := by
  induction ext with
  | nil => intro m _; rfl
  | cons kv ext ih =>
      intro m h
      have hc : containsA m kv.1 = true := h kv (List.mem_cons_self kv ext)
      have hstep : insertMissing m (kv :: ext) =
          insertMissing (if containsA m kv.1 then m else m ++ [kv]) ext := by
        simp [insertMissing]
      rw [hstep, if_pos hc]
      exact ih m (fun kv2 h2 => h kv2 (List.mem_cons_of_mem kv h2))

/-- Every merged-in parent key is present after the merge. -/
theorem containsA_insertMissing_of_mem
    (cur ext : List (String × List String)) {kv : String × List String}
    (h : kv ∈ ext) : containsA (insertMissing cur ext) kv.1 = true := by
  unfold containsA
  rw [lookup_insertMissing ext cur kv.1]
  cases hcur : lookupA cur kv.1 with
  | some v => simp [Option.orElse]
  | none => simp [Option.orElse, lookupA_isSome_of_mem h]

/-- Re-merging the same parent table changes nothing. -/
theorem insertMissing_idem (cur ext : List (String × List String)) :
    insertMissing (insertMissing cur ext) ext = insertMissing cur ext :=
  insertMissing_noop ext (insertMissing cur ext)
    (fun _ h => containsA_insertMissing_of_mem cur ext h)

/-- Merging a table underneath itself changes nothing. -/
theorem insertMissing_self (ext : List (String × List String)) :
    insertMissing ext ext = ext :=
  insertMissing_noop ext ext
    (fun _ h => by simpa [containsA] using lookupA_isSome_of_mem h)

/-- C4: the extends merge of config.rs resolve_tsconfig_with_extends is
child-wins-on-conflict and union otherwise — per alias key the child's
entry is kept and parent-only keys are added; base_url comes from the
parent exactly when the child declares none; a child without compiler
options adopts the parent's; a missing parent is a no-op; and the whole
merge is idempotent. -/
theorem c4_extends_merge_semantics (cfg : TsConfig) (eco : CompilerOptions) :
    (∀ co, cfg.compilerOptions = some co →
      ∃ co', (mergeExtended cfg (some eco)).compilerOptions = some co' ∧
        (∀ k, lookupA (co'.paths.getD []) k =
          (lookupA (co.paths.getD []) k).orElse
            (fun _ => lookupA (eco.paths.getD []) k)) ∧
        co'.baseUrl = (co.baseUrl).orElse (fun _ => eco.baseUrl))
    ∧ (cfg.compilerOptions = none →
        mergeExtended cfg (some eco) =
          { cfg with compilerOptions := some eco })
    ∧ mergeExtended (mergeExtended cfg (some eco)) (some eco) =
        mergeExtended cfg (some eco)
    ∧ mergeExtended cfg none = cfg := by
  refine ⟨?_, ?_, ?_, rfl⟩
  · intro co hco
    refine ⟨⟨(match eco.paths with
        | some epaths => some (insertMissing (co.paths.getD []) epaths)
        | none => co.paths),
        (if co.baseUrl = none then eco.baseUrl else co.baseUrl)⟩,
      by simp [mergeExtended, hco], ?_, ?_⟩
    · intro k
      cases hep : eco.paths with
      | none =>
          cases hcp : co.paths with
          | none => simp [hep, hcp, lookupA, Option.orElse]
          | some cpaths =>
              cases h : lookupA cpaths k <;>
                simp [hep, hcp, h, lookupA, Option.orElse]
      | some epaths =>
          cases hcp : co.paths with
          | none =>
              simp [hep, hcp, lookup_insertMissing, lookupA, Option.orElse]
          | some cpaths =>
              simp [hep, hcp, lookup_insertMissing]
    · cases hb : co.baseUrl <;> simp [hb, Option.orElse]
  · intro hco
    simp [mergeExtended, hco]
  · cases hco : cfg.compilerOptions with
    | none =>
        obtain ⟨ep, eb⟩ := eco
        cases hep : ep <;> cases heb : eb <;>
          simp_all [mergeExtended, hco, insertMissing_self]
    | some co =>
        cases hep : eco.paths with
        | none =>
            cases hcb : co.baseUrl <;>
              simp [mergeExtended, hco, hep, hcb]
        | some epaths =>
            cases hcb : co.baseUrl with
            | none =>
                cases heb : eco.baseUrl <;>
                  simp [mergeExtended, hco, hep, hcb, heb, insertMissing_idem]
            | some b =>
                simp [mergeExtended, hco, hep, hcb, insertMissing_idem]

/-- C4 witness: a concrete child overriding alias A and inheriting alias B
and the parent's base url. -/
theorem c4_witness :
    ∃ co', (mergeExtended
        ⟨some "base.json", some ⟨some [("A", ["Y"])], none⟩⟩
        (some ⟨some [("A", ["X"]), ("B", ["Z"])], some "."⟩)).compilerOptions
        = some co' ∧
      (∀ k, lookupA (co'.paths.getD []) k =
        (lookupA [("A", ["Y"])] k).orElse
          (fun _ => lookupA [("A", ["X"]), ("B", ["Z"])] k)) ∧
      co'.baseUrl = (none : Option String).orElse (fun _ => some ".") :=
  (c4_extends_merge_semantics
      ⟨some "base.json", some ⟨some [("A", ["Y"])], none⟩⟩
      ⟨some [("A", ["X"]), ("B", ["Z"])], some "."⟩).1
    ⟨some [("A", ["Y"])], none⟩ rfl

/-- The lockfile tie-break reads only the lockfile facts of the
environment. -/
theorem pick_by_lockfiles_congr (env env' : ProjectEnv)
    (h : env.lockMtime = env'.lockMtime) :
    pick_by_lockfiles env = pick_by_lockfiles env' := by
  unfold pick_by_lockfiles lockCandidates
  rw [h]

/-- C2 counterexample: the manifest string yarn@beta has a non-numeric
version, yet read_package_manager_field matches it (the regex version
class admits letters and the u64 parse of beta defaults to 0, giving Yarn
Classic), so detection succeeds at the manifest step with PackageJsonField
provenance instead of falling through — here a package-lock.json lockfile
was present and is ignored. -/
theorem c2_counterexample :
    detect_package_manager
        ⟨none, some "yarn@beta", none, none,
          fun n => if n = "package-lock.json" then some 5 else none⟩ =
      ⟨PM.yarnClassic, some "beta", DetectionSource.packageJsonField⟩
    ∧ ("beta").data.all Char.isDigit = false := by
  exact ⟨rfl, by decide⟩

/-- C2 (amended): with no user-agent signal, a manifest packageManager
field that fails the name-at-version regex falls through (detection
proceeds exactly as if the field were absent), while any field matching
the regex succeeds at this step with PackageJsonField provenance and the
version string as hint — the name yarn maps to Classic below 2.0.0 and
Berry at or above, with every non-numeric or missing version piece parsed
as 0. -/
theorem c2_manifest_field_detection (env : ProjectEnv) (s : String)
    (hua : env.userAgent = none) (hf : env.packageManagerField = some s) :
    (parsePMField s = none →
      detect_package_manager env =
        detect_package_manager
          ⟨none, none, env.yarnArtifact, env.pnpmArtifact, env.lockMtime⟩)
    ∧ (∀ nm ver, parsePMField s = some (nm, ver) →
        detect_package_manager env =
          ⟨mapFieldName (lowerStr nm) ver, some ver,
            DetectionSource.packageJsonField⟩)
    ∧ (∀ nm ver, parsePMField s = some (nm, ver) → lowerStr nm = "yarn" →
        detect_package_manager env =
          ⟨(if is_semver_gte ver 2 0 0 then PM.yarnBerry else PM.yarnClassic),
            some ver, DetectionSource.packageJsonField⟩) := by
  obtain ⟨ua, fld, ya, pa, lm⟩ := env
  simp only at hua hf
  subst hua hf
  refine ⟨?_, ?_, ?_⟩
  · intro h
    have hpk : pick_by_lockfiles
        ⟨none, some s, ya, pa, lm⟩ = pick_by_lockfiles ⟨none, none, ya, pa, lm⟩ :=
      pick_by_lockfiles_congr _ _ rfl
    simp [detect_package_manager, detect_package_manager.detectAfterUA,
      read_package_manager_field, h, hpk]
  · intro nm ver h
    simp [detect_package_manager, detect_package_manager.detectAfterUA,
      read_package_manager_field, h]
  · intro nm ver h hyarn
    simp [detect_package_manager, detect_package_manager.detectAfterUA,
      read_package_manager_field, h, mapFieldName, hyarn]

/-- C2 witness: the amended rule applied to the concrete field
yarn@3.5.1. -/
theorem c2_witness :
    detect_package_manager
        ⟨none, some "yarn@3.5.1", none, none, fun _ => none⟩ =
      ⟨PM.yarnBerry, some "3.5.1", DetectionSource.packageJsonField⟩ := by
  have h := (c2_manifest_field_detection
      ⟨none, some "yarn@3.5.1", none, none, fun _ => none⟩ "yarn@3.5.1"
      rfl rfl).2.2 "yarn" "3.5.1" (by decide) (by decide)
  rw [h]
  decide

/-- Membership in the stable mtime insertion. -/
theorem mem_insertByMtime (x y : PM × String × Nat)
    (l : List (PM × String × Nat)) :
    y ∈ insertByMtime x l ↔ y = x ∨ y ∈ l := by
  induction l with
  | nil => simp [insertByMtime]
  | cons z t ih =>
      by_cases h : x.2.2 ≤ z.2.2
      · simp [insertByMtime, h]
      · simp [insertByMtime, h, ih]
        tauto

/-- The stable mtime sort permutes nothing in or out. -/
theorem mem_sortByMtime (y : PM × String × Nat)
    (l : List (PM × String × Nat)) : y ∈ sortByMtime l ↔ y ∈ l := by
  induction l with
  | nil => simp [sortByMtime]
  | cons x t ih => simp [sortByMtime, mem_insertByMtime, ih]

/-- Insertion preserves ascending mtime order. -/
theorem pairwise_insertByMtime (x : PM × String × Nat)
    (l : List (PM × String × Nat))
    (h : l.Pairwise (fun a b => a.2.2 ≤ b.2.2)) :
    (insertByMtime x l).Pairwise (fun a b => a.2.2 ≤ b.2.2) := by
  induction l with
  | nil => simp [insertByMtime]
  | cons z t ih =>
      rcases List.pairwise_cons.mp h with ⟨hz, ht⟩
      by_cases hle : x.2.2 ≤ z.2.2
      · rw [insertByMtime, if_pos hle]
        refine List.pairwise_cons.mpr ⟨?_, h⟩
        intro b hb
        rcases List.mem_cons.mp hb with rfl | hb
        · exact hle
        · exact le_trans hle (hz b hb)
      · rw [insertByMtime, if_neg hle]
        refine List.pairwise_cons.mpr ⟨?_, ih ht⟩
        intro b hb
        rcases (mem_insertByMtime x b t).mp hb with rfl | hb
        · exact le_of_not_le hle
        · exact hz b hb

/-- The mtime sort is sorted ascending. -/
theorem pairwise_sortByMtime (l : List (PM × String × Nat)) :
    (sortByMtime l).Pairwise (fun a b => a.2.2 ≤ b.2.2) := by
  induction l with
  | nil => simp [sortByMtime]
  | cons x t ih => exact pairwise_insertByMtime x (sortByMtime t) ih

/-- In an ascending list the last element dominates every member. -/
theorem last_ge_of_pairwise :
    ∀ (l : List (PM × String × Nat)) (c : PM × String × Nat),
      l.Pairwise (fun a b => a.2.2 ≤ b.2.2) → l.getLast? = some c →
      ∀ x ∈ l, x.2.2 ≤ c.2.2 := by
  intro l
  induction l with
  | nil => intro c _ h; cases h
  | cons a t ih =>
      intro c hp hl x hx
      cases t with
      | nil =>
          simp only [List.getLast?_singleton, Option.some.injEq] at hl
          subst hl
          rcases List.mem_singleton.mp hx with rfl
          exact le_refl _
      | cons b t2 =>
          rcases List.pairwise_cons.mp hp with ⟨ha, hp2⟩
          rw [List.getLast?_cons_cons] at hl
          have hc : c ∈ b :: t2 := by
            rcases List.mem_getLast?_eq_getLast (Option.mem_def.mpr hl) with
              ⟨hne, rfl⟩
            exact List.getLast_mem hne
          rcases List.mem_cons.mp hx with rfl | hx
          · exact le_trans (ha c hc) (le_refl _)
          · exact ih c hp2 hl x hx

/-- Insertion never yields the empty list. -/
theorem insertByMtime_ne_nil (x : PM × String × Nat)
    (l : List (PM × String × Nat)) : insertByMtime x l ≠ [] := by
  cases l with
  | nil => simp [insertByMtime]
  | cons z t =>
      by_cases h : x.2.2 ≤ z.2.2 <;> simp [insertByMtime, h]

/-- The concrete environment of the claim scenario: an older yarn.lock and
a newer package-lock.json, with no other detection signal. -/
def envC8 : ProjectEnv :=
  ⟨none, none, none, none,
    fun n => if n = "yarn.lock" then some 10
             else if n = "package-lock.json" then some 20 else none⟩

/-- C8: when the user agent, the manifest manager field, the yarn
artifacts and the pnpm artifact all yield no match, detection returns the
manager of an existing lockfile with maximal modification time, with
Lockfile provenance naming that lockfile's path; in particular an older
yarn.lock next to a newer package-lock.json gives Npm pointing at
package-lock.json. -/
theorem c8_lockfile_mtime_tiebreak :
    (∀ env : ProjectEnv, env.userAgent = none →
      read_package_manager_field env.packageManagerField = .error () →
      env.yarnArtifact = none → env.pnpmArtifact = none →
      lockCandidates env ≠ [] →
      ∃ c ∈ lockCandidates env,
        (∀ x ∈ lockCandidates env, x.2.2 ≤ c.2.2) ∧
        detect_package_manager env =
          ⟨c.1, none, DetectionSource.lockfile c.2.1⟩)
    ∧ detect_package_manager envC8 =
        ⟨PM.npm, none, DetectionSource.lockfile "package-lock.json"⟩ := by
  constructor
  · intro env hua hf hya hpa hne
    obtain ⟨ua, fld, ya, pa, lm⟩ := env
    simp only at hua hf hya hpa
    subst hua hya hpa
    have hsne : sortByMtime (lockCandidates ⟨none, fld, none, none, lm⟩) ≠ [] := by
      rcases hcand : lockCandidates ⟨none, fld, none, none, lm⟩ with _ | ⟨x, t⟩
      · exact absurd hcand hne
      · simpa [sortByMtime] using insertByMtime_ne_nil x (sortByMtime t)
    rcases hlast : (sortByMtime
        (lockCandidates ⟨none, fld, none, none, lm⟩)).getLast? with _ | c
    · exact absurd (List.getLast?_eq_none_iff.mp hlast) hsne
    · refine ⟨c, ?_, ?_, ?_⟩
      · exact (mem_sortByMtime c _).mp
          (by rcases List.mem_getLast?_eq_getLast (Option.mem_def.mpr hlast)
                with ⟨hne2, rfl⟩
              exact List.getLast_mem hne2)
      · intro x hx
        exact last_ge_of_pairwise _ c (pairwise_sortByMtime _) hlast x
          ((mem_sortByMtime x _).mpr hx)
      · simp [detect_package_manager, detect_package_manager.detectAfterUA,
          hf, pick_by_lockfiles, hne, hlast]
  · rfl

/-- C8 witness: the general rule applied to the concrete
older-yarn.lock/newer-package-lock.json environment. -/
theorem c8_witness :
    ∃ c ∈ lockCandidates envC8,
      (∀ x ∈ lockCandidates envC8, x.2.2 ≤ c.2.2) ∧
      detect_package_manager envC8 =
        ⟨c.1, none, DetectionSource.lockfile c.2.1⟩ :=
  c8_lockfile_mtime_tiebreak.1 envC8 rfl rfl rfl rfl (by decide)

/-- The concrete installer configuration used for the placeholder-pipeline
evaluations: TypeScript enabled, no resolved tsconfig paths, utils alias
src/lib/utils. -/
def instC3 : Installer :=
  ⟨⟨⟨"src/lib/components", "src/lib/utils", none, none, none⟩,
    some (.boolean true)⟩, none⟩

/-- C3 counterexample: on the raw template text dollar-UTILS-dollar.js the
source pipeline substitutes first (cleanup of placeholder tokens runs
after substitution), so the .js of the literal token occurrence survives
into the resolved path, while the pipeline the claim describes
(token-.js cleanup before substitution) would strip it. -/
theorem c3_counterexample :
    process_placeholders instC3 "$UTILS$.js" none = "src/lib/utils.js"
    ∧ processPlaceholdersSpecOrder instC3 "$UTILS$.js" none = "src/lib/utils"
    ∧ process_placeholders instC3 "$UTILS$.js" none ≠
        processPlaceholdersSpecOrder instC3 "$UTILS$.js" none := by
  refine ⟨rfl, rfl, by decide⟩

/-- resolve_import_path_manually never returns none. -/
theorem resolve_import_path_manually_isSome (inst : Installer) (p : String) :
    (resolve_import_path_manually inst p).isSome = true := by
  unfold resolve_import_path_manually
  by_cases h : strStartsWith p "$lib" = true
  · cases hl : inst.config.aliases.lib <;> simp [h, hl]
  · simp [h]

/-- C3 (amended): when TypeScript mode is enabled the processor strips a
trailing .js from the quoted specifier of static imports, static exports
and dynamic import calls, but that cleanup runs AFTER placeholder
substitution: each of the four tokens always resolves (all four import
path helpers are total), so a literal token-.js occurrence is substituted
first and keeps its .js unless an import/export/dynamic-import pattern
strips it; the pattern-four cleanup only ever fires on residual all-caps
tokens that were not substituted, and rewrites them to the literal text
dollar-one-dollar. -/
theorem c3_cleanup_after_substitution :
    (∀ (inst : Installer) (ctx : Option ComponentContext),
      (getUtilsImportPath inst).isSome = true ∧
      (getComponentsImportPathWithContext inst ctx).isSome = true ∧
      (getHooksImportPathWithContext inst ctx).isSome = true ∧
      (getLibImportPathWithContext inst ctx).isSome = true)
    ∧ process_placeholders instC3 "import x from \"./a.js\";" none =
        "import x from \"./a\";"
    ∧ process_placeholders instC3 "export * from './b.js';" none =
        "export * from './b';"
    ∧ process_placeholders instC3 "const m = import(\"./c.js\")" none =
        "const m = import(\"./c\")"
    ∧ process_placeholders instC3 "import x from \"$UTILS$.js\";" none =
        "import x from \"src/lib/utils\";"
    ∧ process_placeholders instC3 "$UTILS$.js" none = "src/lib/utils.js"
    ∧ remove_js_extensions_from_imports "$FOO$.js" = "$1$" := by
  refine ⟨?_, rfl, rfl, rfl, rfl, rfl, rfl⟩
  intro inst ctx
  refine ⟨?_, ?_, ?_, ?_⟩
  · unfold getUtilsImportPath
    cases htp : inst.typescriptPaths with
    | none => exact resolve_import_path_manually_isSome ..
    | some tp =>
        by_cases h : resolve_import_path_with_typescript
            inst.config.aliases.utils tp.paths ≠ ""
        · simp [h]
        · simp [h, resolve_import_path_manually_isSome]
  · unfold getComponentsImportPathWithContext
    cases htp : inst.typescriptPaths with
    | none => exact resolve_import_path_manually_isSome ..
    | some tp =>
        by_cases h : resolve_import_path_with_typescript
            (match ctx with
             | some c => getAliasForComponentType inst c.componentType
             | none => inst.config.aliases.components) tp.paths ≠ ""
        · simp [h]
        · simp [h, resolve_import_path_manually_isSome]
  · unfold getHooksImportPathWithContext
    cases htp : inst.typescriptPaths with
    | none => exact resolve_import_path_manually_isSome ..
    | some tp =>
        by_cases h : resolve_import_path_with_typescript
            (match ctx with
             | some c =>
                 if c.componentType = some "registry:hook" then
                   inst.config.aliases.hooks.getD inst.config.aliases.components
                 else getAliasForComponentType inst c.componentType
             | none =>
                 inst.config.aliases.hooks.getD inst.config.aliases.components)
            tp.paths ≠ ""
        · simp [h]
        · simp [h, resolve_import_path_manually_isSome]
  · unfold getLibImportPathWithContext
    cases htp : inst.typescriptPaths with
    | none => simp
    | some tp =>
        by_cases h : resolve_import_path_with_typescript
            (match ctx with
             | some c =>
                 if c.componentType = some "registry:lib" then
                   inst.config.aliases.lib.getD inst.config.aliases.components
                 else getAliasForComponentType inst c.componentType
             | none =>
                 inst.config.aliases.lib.getD inst.config.aliases.components)
            tp.paths ≠ ""
        · simp [h]
        · simp [h]

/-- The file loop of install_component_files, characterised: success
applies exactly the in-order writes; failure happens only with force off,
at the first file whose resolved target already exists, with the error
naming that path and the filesystem holding exactly the writes of the
earlier files (no rollback). -/
theorem installFilesLoop_spec (inst : Installer) (ctx : ComponentContext)
    (force : Bool) :
    ∀ (files : List ComponentFile) (fs : FS),
      (∀ fs', installFilesLoop inst ctx force files fs = .ok fs' →
        fs' = applyWrites inst ctx fs files)
      ∧ (∀ e fsE, installFilesLoop inst ctx force files fs = .error (e, fsE) →
          force = false ∧ ∃ k f, files.get? k = some f ∧
            fsE = applyWrites inst ctx fs (files.take k) ∧
            e = .alreadyExists (resolve_file_path inst f.getTargetPath ctx) ∧
            fsExists fsE (resolve_file_path inst f.getTargetPath ctx) = true) := by
  intro files
  induction files with
  | nil =>
      intro fs
      refine ⟨fun fs' h => ?_, fun e fsE h => ?_⟩
      · cases h; rfl
      · cases h
  | cons f rest ih =>
      intro fs
      by_cases hcond : fsExists fs (resolve_file_path inst f.getTargetPath ctx)
          = true ∧ ¬ force = true
      · have hstep : install_file inst f ctx force fs =
            .error (.alreadyExists (resolve_file_path inst f.getTargetPath ctx)) := by
          unfold install_file
          rw [if_pos hcond]
        refine ⟨fun fs' h => ?_, fun e fsE h => ?_⟩
        · rw [installFilesLoop, hstep] at h; cases h
        · rw [installFilesLoop, hstep] at h
          cases h
          refine ⟨by simpa using hcond.2, 0, f, rfl, rfl, rfl, hcond.1⟩
      · have hstep : install_file inst f ctx force fs =
            .ok (writeFileUnchecked inst ctx fs f) := by
          unfold install_file writeFileUnchecked
          rw [if_neg hcond]
        refine ⟨fun fs' h => ?_, fun e fsE h => ?_⟩
        · rw [installFilesLoop, hstep] at h
          exact (ih (writeFileUnchecked inst ctx fs f)).1 fs' h
        · rw [installFilesLoop, hstep] at h
          rcases (ih (writeFileUnchecked inst ctx fs f)).2 e fsE h with
            ⟨hforce, k, f', h1, h2, h3, h4⟩
          exact ⟨hforce, k + 1, f', h1, h2, h3, h4⟩

/-- C5: install_component_files processes the declared files in order; on
success the filesystem holds exactly the in-order writes (parent
directories created, content run through the placeholder processor); a
failure is possible only with force off, aborts the whole call at the
first file whose resolved target already exists with an already-exists
error naming that path, and leaves every file written earlier in the same
call in place (the state at failure is exactly the writes of the earlier
files — no rollback). -/
theorem c5_install_files_no_rollback (inst : Installer) (comp : Component)
    (ctx : ComponentContext) (force : Bool) (fs : FS) :
    (∀ fs', install_component_files inst comp ctx force fs = .ok fs' →
      fs' = applyWrites inst ctx fs comp.files)
    ∧ (∀ e fsE,
        install_component_files inst comp ctx force fs = .error (e, fsE) →
        force = false ∧ ∃ k f, comp.files.get? k = some f ∧
          fsE = applyWrites inst ctx fs (comp.files.take k) ∧
          e = .alreadyExists (resolve_file_path inst f.getTargetPath ctx) ∧
          fsExists fsE (resolve_file_path inst f.getTargetPath ctx) = true) :=
  installFilesLoop_spec inst ctx force comp.files fs

/-- The concrete installer, component and context of the C5 witness: two
declared files resolving to the same target path. -/
def instC5 : Installer := ⟨⟨⟨"comp", "u", none, none, none⟩, none⟩, none⟩

/-- A component declaring two files with the same target. -/
def compC5 : Component :=
  ⟨"dup", none, none, none, none,
    [⟨"one", none, some "a/x.ts", none⟩, ⟨"two", none, some "a/x.ts", none⟩],
    none⟩

/-- C5 witness: installing the duplicate-target component without force
fails at the second file with AlreadyExists while the first file's write
is still in place. -/
theorem c5_witness :
    false = false ∧ ∃ k f, compC5.files.get? k = some f ∧
      (⟨[("comp/a/x.ts", "one")], ["comp", "comp/a"]⟩ : FS) =
        applyWrites instC5 ⟨"dup", none, none⟩ ⟨[], []⟩
          (compC5.files.take k) ∧
      InstallError.alreadyExists "comp/a/x.ts" =
        .alreadyExists (resolve_file_path instC5 f.getTargetPath
          ⟨"dup", none, none⟩) ∧
      fsExists ⟨[("comp/a/x.ts", "one")], ["comp", "comp/a"]⟩
        (resolve_file_path instC5 f.getTargetPath ⟨"dup", none, none⟩) =
        true :=
  (c5_install_files_no_rollback instC5 compC5 ⟨"dup", none, none⟩ false
    ⟨[], []⟩).2 (.alreadyExists "comp/a/x.ts")
    ⟨[("comp/a/x.ts", "one")], ["comp", "comp/a"]⟩ rfl

/-- install_component_inner at skip_deps = true coincides with its
factored-out body: with dependencies skipped, no recursion happens. -/
theorem install_inner_true_eq_skip (fetch : String → Option Component)
    (inst : Installer) (name : String) (force : Bool) (fs : FS) :
    install_component_inner fetch inst name force true fs =
      installComponentSkipDeps fetch inst name force fs := by
  unfold install_component_inner installComponentSkipDeps
  cases hf : fetch name with
  | none => rfl
  | some comp =>
      cases hcf : install_component_files inst comp
          (createComponentContext comp) force fs <;> simp [hcf]

/-- A successful skip-deps install of one component reports exactly that
component, flagged skip_deps = true. -/
theorem installComponentSkipDeps_ok_trace (fetch : String → Option Component)
    (inst : Installer) (d : String) (force : Bool) (fs : FS)
    (evs : List (String × Bool)) (fs' : FS)
    (h : installComponentSkipDeps fetch inst d force fs = .ok (evs, fs')) :
    evs = [(d, true)] := by
  unfold installComponentSkipDeps at h
  cases hf : fetch d with
  | none => rw [hf] at h; cases h
  | some comp =>
      rw [hf] at h
      dsimp only at h
      cases hcf : install_component_files inst comp
          (createComponentContext comp) force fs with
      | error e => rw [hcf] at h; cases h
      | ok fs2 => rw [hcf] at h; cases h; rfl

/-- A successful run of the dependency loop reports exactly the declared
dependency names in list order, each flagged skip_deps = true. -/
theorem installDepsLoop_ok_trace (fetch : String → Option Component)
    (inst : Installer) (force : Bool) :
    ∀ (ds : List String) (fs : FS) (evs : List (String × Bool)) (fs' : FS),
      installDepsLoop fetch inst force ds fs = .ok (evs, fs') →
      evs = ds.map (fun d => (d, true)) := by
  intro ds
  induction ds with
  | nil => intro fs evs fs' h; cases h; rfl
  | cons d rest ih =>
      intro fs evs fs' h
      rw [installDepsLoop] at h
      cases hs : installComponentSkipDeps fetch inst d force fs with
      | error e => rw [hs] at h; cases h
      | ok p =>
          obtain ⟨evs0, fs0⟩ := p
          rw [hs] at h
          dsimp only at h
          cases hl : installDepsLoop fetch inst force rest fs0 with
          | error e => rw [hl] at h; cases h
          | ok p2 =>
              obtain ⟨evs1, fs1⟩ := p2
              rw [hl] at h
              have h0 := installComponentSkipDeps_ok_trace fetch inst d force
                fs evs0 fs0 hs
              have h1 := ih fs0 evs1 fs1 hl
              cases h
              rw [h0, h1]
              rfl

/-- C1: a successful install_component call with skipDeps = false installs
each name of the fetched component's declared registry-dependency list, in
list order, with skipDeps forced to true, then the component itself; in
particular every component installed by the call is the requested one or
one of its directly declared registry dependencies — dependencies of
dependencies are never expanded (exactly one level). -/
theorem c1_one_level_dependency_expansion (fetch : String → Option Component)
    (inst : Installer) (name : String) (force : Bool) (fs : FS)
    (comp : Component) (evs : List (String × Bool)) (fs' : FS)
    (hfetch : fetch name = some comp)
    (hok : install_component_inner fetch inst name force false fs =
      .ok (evs, fs')) :
    evs = (comp.registryDependencies.getD []).map (fun d => (d, true)) ++
        [(name, false)]
    ∧ ∀ e ∈ evs, e.1 = name ∨ e.1 ∈ comp.registryDependencies.getD [] := by
  unfold install_component_inner at hok
  rw [hfetch] at hok
  simp only [if_neg (Bool.false_ne_true)] at hok
  cases hd : installDepsLoop fetch inst force
      (comp.registryDependencies.getD []) fs with
  | error e => rw [hd] at hok; cases hok
  | ok p =>
      obtain ⟨evs0, fs1⟩ := p
      rw [hd] at hok
      dsimp only at hok
      cases hcf : install_component_files inst comp
          (createComponentContext comp) force fs1 with
      | error e => rw [hcf] at hok; cases hok
      | ok fs2 =>
          rw [hcf] at hok
          cases hok
          have htr := installDepsLoop_ok_trace fetch inst force _ fs evs0 fs1 hd
          subst htr
          refine ⟨rfl, ?_⟩
          intro e he
          rcases List.mem_append.mp he with hm | hm
          · rcases List.mem_map.mp hm with ⟨d, hd2, rfl⟩
            exact Or.inr hd2
          · rcases List.mem_singleton.mp hm with rfl
            exact Or.inl rfl

/-- The concrete registry of the C1 witness: card depends on button, which
itself depends on icon. -/
def fetchC1 : String → Option Component := fun n =>
  if n = "card" then
    some ⟨"card", none, none, none, some ["button"],
      [⟨"c1", none, some "card/card.tsx", none⟩], none⟩
  else if n = "button" then
    some ⟨"button", none, none, none, some ["icon"],
      [⟨"b1", none, some "button/button.tsx", none⟩], none⟩
  else if n = "icon" then
    some ⟨"icon", none, none, none, none,
      [⟨"i1", none, some "icon/icon.tsx", none⟩], none⟩
  else none

/-- The installer of the C1 witness. -/
def instC1 : Installer := ⟨⟨⟨"comp", "u", none, none, none⟩, none⟩, none⟩

/-- C1 witness: installing card installs button's files and card, and does
not expand button's own registry dependency icon. -/
theorem c1_witness :
    (([("button", true), ("card", false)] : List (String × Bool)) =
      (((fetchC1 "card").getD
          ⟨"", none, none, none, none, [], none⟩).registryDependencies.getD
          []).map (fun d => (d, true)) ++ [("card", false)]
      ∧ ∀ e ∈ ([("button", true), ("card", false)] : List (String × Bool)),
          e.1 = "card" ∨ e.1 ∈ ((fetchC1 "card").getD
            ⟨"", none, none, none, none, [], none⟩).registryDependencies.getD [])
    ∧ ∀ e ∈ ([("button", true), ("card", false)] : List (String × Bool)),
        e.1 ≠ "icon" := by
  refine ⟨?_, by decide⟩
  exact c1_one_level_dependency_expansion fetchC1 instC1 "card" true ⟨[], []⟩
    (⟨"card", none, none, none, some ["button"],
      [⟨"c1", none, some "card/card.tsx", none⟩], none⟩)
    [("button", true), ("card", false)]
    ⟨[("comp/card/card.tsx", "c1"), ("comp/button/button.tsx", "b1")],
      ["comp", "comp/card", "comp", "comp/button"]⟩ rfl rfl

/-- A path that does not exist cannot be read. -/
theorem fsReadFile_none_of_not_exists (fs : FS) (p : String)
    (h : ¬ fsExists fs p = true) : fsReadFile fs p = none := by
  unfold fsExists fsIsFile at h
  cases hr : fsReadFile fs p with
  | none => rfl
  | some c => exact absurd (by simp [hr]) h

/-- The outdated file loop holds exactly when some declared file is
unreadable locally or differs from the registry content after
normalization. -/
theorem outdatedFilesLoop_iff (inst : Installer) (fs : FS)
    (ctx : ComponentContext) :
    ∀ files : List ComponentFile,
      (outdatedFilesLoop inst fs ctx files = true ↔
        ∃ f ∈ files,
          fsReadFile fs (resolve_file_path inst f.getTargetPath ctx) = none ∨
          ∃ c, fsReadFile fs (resolve_file_path inst f.getTargetPath ctx) =
              some c ∧
            normalize_content inst c ≠ normalize_content inst f.content) := by
  intro files
  induction files with
  | nil => simp [outdatedFilesLoop]
  | cons f rest ih =>
      rw [outdatedFilesLoop]
      by_cases hex : fsExists fs (resolve_file_path inst f.getTargetPath ctx)
          = true
      · rw [if_neg (by simp [hex])]
        cases hr : fsReadFile fs (resolve_file_path inst f.getTargetPath ctx) with
        | none =>
            simp only [true_iff]
            exact ⟨f, List.mem_cons_self f rest, Or.inl hr⟩
        | some c =>
            dsimp only
            by_cases hdiff : normalize_content inst c ≠
                normalize_content inst f.content
            · rw [if_pos hdiff]
              simp only [true_iff]
              exact ⟨f, List.mem_cons_self f rest, Or.inr ⟨c, hr, hdiff⟩⟩
            · rw [if_neg hdiff]
              rw [ih]
              constructor
              · rintro ⟨g, hg, hcase⟩
                exact ⟨g, List.mem_cons_of_mem f hg, hcase⟩
              · rintro ⟨g, hg, hcase⟩
                rcases List.mem_cons.mp hg with rfl | hg2
                · rcases hcase with hnone | ⟨c', hc', hd'⟩
                  · rw [hr] at hnone; cases hnone
                  · rw [hr] at hc'
                    cases hc'
                    exact absurd hd' hdiff
                · exact ⟨g, hg2, hcase⟩
      · rw [if_pos (by simpa using hex)]
        simp only [true_iff]
        exact ⟨f, List.mem_cons_self f rest,
          Or.inl (fsReadFile_none_of_not_exists fs _ hex)⟩

/-- C6 (amended): is_component_outdated is false whenever the component is
not locally installed and false when the registry re-fetch fails;
otherwise it is true exactly when some declared file is locally missing
or unreadable, or differs from the freshly fetched content after both
sides are normalized by the placeholder processor (no context) followed by
per-line trimming and blank-line removal — so edits confined to line
indentation, trailing line whitespace or blank lines keep a component
not-outdated, while whitespace changes interior to a line count as content
changes and mark it outdated. -/
theorem c6_outdated_semantics (inst : Installer) (fs : FS) (name : String)
    (fetchRes : Option Component) :
    (is_component_installed inst fs name = false →
      is_component_outdated inst fs name fetchRes = false)
    ∧ (fetchRes = none → is_component_outdated inst fs name fetchRes = false)
    ∧ (∀ comp, fetchRes = some comp →
        is_component_installed inst fs name = true →
        (is_component_outdated inst fs name fetchRes = true ↔
          ∃ f ∈ comp.files,
            fsReadFile fs (resolve_file_path inst f.getTargetPath
              (createComponentContext comp)) = none ∨
            ∃ c, fsReadFile fs (resolve_file_path inst f.getTargetPath
                (createComponentContext comp)) = some c ∧
              normalize_content inst c ≠
                normalize_content inst f.content)) := by
  refine ⟨?_, ?_, ?_⟩
  · intro h
    simp [is_component_outdated, h]
  · intro h
    subst h
    simp [is_component_outdated]
  · intro comp hc hinst
    subst hc
    rw [is_component_outdated, if_neg (by simp [hinst])]
    exact outdatedFilesLoop_iff inst fs (createComponentContext comp)
      comp.files

/-- The installer, filesystem and component of the C6 scenario: the
installed file differs from the registry only in interior spacing. -/
def instC6 : Installer := ⟨⟨⟨"comp", "u", none, none, none⟩, none⟩, none⟩

/-- The registry component of the C6 scenario. -/
def compC6 : Component :=
  ⟨"btn", none, none, none, none,
    [⟨"const a = 1", none, some "btn.tsx", none⟩], none⟩

/-- The local filesystem of the C6 scenario: one extra interior space. -/
def fsC6 : FS := ⟨[("comp/btn.tsx", "const a  = 1")], []⟩

/-- C6 counterexample: a mutation that only inserts an interior whitespace
character into the installed file (non-whitespace characters unchanged) is
reported outdated, because normalization only trims line ends and drops
blank lines. -/
theorem c6_counterexample :
    is_component_outdated instC6 fsC6 "btn" (some compC6) = true
    ∧ fsReadFile fsC6 "comp/btn.tsx" = some "const a  = 1"
    ∧ compC6.files.map ComponentFile.content = ["const a = 1"]
    ∧ ("const a  = 1").data.filter (fun c => ! isWs c) =
        ("const a = 1").data.filter (fun c => ! isWs c) := by
  exact ⟨rfl, rfl, rfl, by decide⟩

/-- C6 witness: the not-installed rule applied to an empty project. -/
theorem c6_witness :
    is_component_outdated instC6 ⟨[], []⟩ "ghost" (some compC6) = false :=
  (c6_outdated_semantics instC6 ⟨[], []⟩ "ghost" (some compC6)).1 rfl

/-- The filter-and-name condition under which a directory entry
contributes a component name to the get_installed_components scan: a
non-hidden directory not named index.ts/index.js contributes its own name;
a non-hidden, non-.d.ts, non-.map file not named index.ts/index.js
contributes the non-empty piece of its name before the first dot. -/
def entryYields (e : DirEntry) (x : String) : Prop :=
  (e.kind = .dir ∧ strStartsWith e.name "." = false ∧ e.name ≠ "index.ts" ∧
    e.name ≠ "index.js" ∧ x = e.name)
  ∨ (e.kind = .file ∧ strStartsWith e.name "." = false ∧
      strEndsWith e.name ".d.ts" = false ∧ strEndsWith e.name ".map" = false ∧
      e.name ≠ "index.ts" ∧ e.name ≠ "index.js" ∧
      x = (⟨(splitOnChar '.' e.name.data).headD []⟩ : String) ∧ x ≠ "")

/-- One scan step adds exactly the entry's yielded name. -/
theorem mem_scanStep (acc : List String) (e : DirEntry) (x : String) :
    x ∈ scanStep acc e ↔ x ∈ acc ∨ entryYields e x := by
  obtain ⟨nm, k⟩ := e
  cases k with
  | dir =>
      rw [scanStep]
      dsimp only
      split_ifs with h
      · simp only [List.mem_append, List.mem_singleton, entryYields]
        constructor
        · rintro (hx | rfl)
          · exact Or.inl hx
          · exact Or.inr (Or.inl ⟨trivial, by simpa using h.1, h.2.1, h.2.2, rfl⟩)
        · rintro (hx | (⟨_, _, _, _, rfl⟩ | ⟨hk, _⟩))
          · exact Or.inl hx
          · exact Or.inr rfl
          · cases hk
      · simp only [entryYields]
        constructor
        · exact fun hx => Or.inl hx
        · rintro (hx | (⟨_, h1, h2, h3, rfl⟩ | ⟨hk, _⟩))
          · exact hx
          · exact absurd ⟨by simp [h1], h2, h3⟩ h
          · cases hk
  | file =>
      rw [scanStep]
      dsimp only
      split_ifs with h h2
      · simp only [List.mem_append, List.mem_singleton, entryYields]
        constructor
        · rintro (hx | rfl)
          · exact Or.inl hx
          · exact Or.inr (Or.inr ⟨trivial, by simpa using h.1, by simpa using h.2.1,
              by simpa using h.2.2.1, h.2.2.2.1, h.2.2.2.2, rfl, h2⟩)
        · rintro (hx | (⟨hk, _⟩ | ⟨_, _, _, _, _, _, rfl, _⟩))
          · exact Or.inl hx
          · cases hk
          · exact Or.inr rfl
      · simp only [entryYields]
        constructor
        · exact fun hx => Or.inl hx
        · rintro (hx | (⟨hk, _⟩ | ⟨_, _, _, _, _, _, rfl, hne⟩))
          · exact hx
          · cases hk
          · exact absurd hne h2
      · simp only [entryYields]
        constructor
        · exact fun hx => Or.inl hx
        · rintro (hx | (⟨hk, _⟩ | ⟨_, h1, h2', h3, h4, h5, rfl, _⟩))
          · exact hx
          · cases hk
          · exact absurd ⟨by simp [h1], by simp [h2'], by simp [h3], h4, h5⟩ h
  | other =>
      rw [scanStep]
      simp only [entryYields]
      constructor
      · exact fun hx => Or.inl hx
      · rintro (hx | (⟨hk, _⟩ | ⟨hk, _⟩))
        · exact hx
        · cases hk
        · cases hk

/-- Membership in the whole scan fold. -/
theorem mem_scanFold (entries : List DirEntry) :
    ∀ (acc : List String) (x : String),
      x ∈ entries.foldl scanStep acc ↔ x ∈ acc ∨ ∃ e ∈ entries, entryYields e x := by
  induction entries with
  | nil => intro acc x; simp
  | cons e rest ih =>
      intro acc x
      rw [List.foldl_cons, ih (scanStep acc e) x]
      rw [mem_scanStep acc e x]
      constructor
      · rintro ((hx | hy) | ⟨e2, he2, hy2⟩)
        · exact Or.inl hx
        · exact Or.inr ⟨e, List.mem_cons_self e rest, hy⟩
        · exact Or.inr ⟨e2, List.mem_cons_of_mem e he2, hy2⟩
      · rintro (hx | ⟨e2, he2, hy2⟩)
        · exact Or.inl (Or.inl hx)
        · rcases List.mem_cons.mp he2 with rfl | he3
          · exact Or.inl (Or.inr hy2)
          · exact Or.inr ⟨e2, he3, hy2⟩

/-- The byte-order comparison is total. -/
theorem charListLe_total : ∀ a b : List Char,
    charListLe a b = true ∨ charListLe b a = true := by
  intro a
  induction a with
  | nil => intro b; exact Or.inl rfl
  | cons c as ih =>
      intro b
      cases b with
      | nil => exact Or.inr rfl
      | cons d bs =>
          by_cases h1 : c.toNat < d.toNat
          · left; simp [charListLe, h1]
          · by_cases h2 : d.toNat < c.toNat
            · right; simp [charListLe, h2]
            · rcases ih bs with h | h <;>
                simp [charListLe, h1, h2, h]

/-- Unfolding of the byte-order comparison on cons cells. -/
theorem charListLe_cons_iff (x y : Char) (as bs : List Char) :
    charListLe (x :: as) (y :: bs) = true ↔
      x.toNat < y.toNat ∨ (x.toNat = y.toNat ∧ charListLe as bs = true) := by
  by_cases h1 : x.toNat < y.toNat
  · simp [charListLe, h1]
  · by_cases h2 : y.toNat < x.toNat
    · simp [charListLe, h1, h2]
      omega
    · have hxy : x.toNat = y.toNat := by omega
      simp [charListLe, h1, h2, hxy]

/-- The byte-order comparison is antisymmetric. -/
theorem charListLe_antisymm : ∀ a b : List Char,
    charListLe a b = true → charListLe b a = true → a = b := by
  intro a
  induction a with
  | nil =>
      intro b _ hba
      cases b with
      | nil => rfl
      | cons d bs => simp [charListLe] at hba
  | cons c as ih =>
      intro b hab hba
      cases b with
      | nil => simp [charListLe] at hab
      | cons d bs =>
          rcases (charListLe_cons_iff c d as bs).mp hab with h | ⟨heq, hrec⟩
          · rcases (charListLe_cons_iff d c bs as).mp hba with h' | ⟨heq', _⟩
            · omega
            · omega
          · rcases (charListLe_cons_iff d c bs as).mp hba with h' | ⟨_, hrec'⟩
            · omega
            · have hcd : c = d :=
                Char.eq_of_val_eq (UInt32.ext heq)
              rw [hcd, ih bs hrec hrec']

/-- The byte-order comparison is transitive. -/
theorem charListLe_trans : ∀ a b c : List Char,
    charListLe a b = true → charListLe b c = true → charListLe a c = true := by
  intro a
  induction a with
  | nil => intro b c _ _; rfl
  | cons x as ih =>
      intro b c hab hbc
      cases b with
      | nil => simp [charListLe] at hab
      | cons y bs =>
          cases c with
          | nil => simp [charListLe] at hbc
          | cons z cs =>
              rcases (charListLe_cons_iff x y as bs).mp hab with h | ⟨heq, hrec⟩ <;>
                rcases (charListLe_cons_iff y z bs cs).mp hbc with h' | ⟨heq', hrec'⟩ <;>
                rw [charListLe_cons_iff]
              · exact Or.inl (by omega)
              · exact Or.inl (by omega)
              · exact Or.inl (by omega)
              · exact Or.inr ⟨by omega, ih bs cs hrec hrec'⟩

/-- String byte order is total. -/
theorem strLe_total (a b : String) : strLe a b = true ∨ strLe b a = true :=
  charListLe_total a.data b.data

/-- String byte order is antisymmetric. -/
theorem strLe_antisymm (a b : String) (h1 : strLe a b = true)
    (h2 : strLe b a = true) : a = b := by
  cases a with
  | mk la =>
      cases b with
      | mk lb => exact congrArg String.mk (charListLe_antisymm la lb h1 h2)

/-- String byte order is transitive. -/
theorem strLe_trans (a b c : String) (h1 : strLe a b = true)
    (h2 : strLe b c = true) : strLe a c = true :=
  charListLe_trans a.data b.data c.data h1 h2

/-- Membership in the stable string insertion. -/
theorem mem_insertStr (x y : String) (l : List String) :
    y ∈ insertStr x l ↔ y = x ∨ y ∈ l := by
  induction l with
  | nil => simp [insertStr]
  | cons z t ih =>
      by_cases h : strLe x z = true
      · simp [insertStr, h]
      · simp [insertStr, h, ih]
        tauto

/-- The string sort is a permutation membership-wise. -/
theorem mem_sortStrs (y : String) (l : List String) :
    y ∈ sortStrs l ↔ y ∈ l := by
  induction l with
  | nil => simp [sortStrs]
  | cons x t ih => simp [sortStrs, mem_insertStr, ih]

/-- The stable string insertion preserves ascending order. -/
theorem pairwise_insertStr (x : String) (l : List String)
    (h : l.Pairwise (fun a b => strLe a b = true)) :
    (insertStr x l).Pairwise (fun a b => strLe a b = true) := by
  induction l with
  | nil => simp [insertStr]
  | cons z t ih =>
      rcases List.pairwise_cons.mp h with ⟨hz, ht⟩
      by_cases hle : strLe x z = true
      · rw [insertStr, if_pos hle]
        refine List.pairwise_cons.mpr ⟨?_, h⟩
        intro b hb
        rcases List.mem_cons.mp hb with rfl | hb
        · exact hle
        · exact strLe_trans x z b hle (hz b hb)
      · rw [insertStr, if_neg hle]
        refine List.pairwise_cons.mpr ⟨?_, ih ht⟩
        intro b hb
        rcases (mem_insertStr x b t).mp hb with rfl | hb
        · rcases strLe_total z b with h' | h'
          · exact h'
          · exact absurd h' hle
        · exact hz b hb

/-- Vec::sort sorts ascending. -/
theorem pairwise_sortStrs (l : List String) :
    (sortStrs l).Pairwise (fun a b => strLe a b = true) := by
  induction l with
  | nil => simp [sortStrs]
  | cons x t ih => exact pairwise_insertStr x (sortStrs t) ih

/-- The dedup tail is a sublist of its input. -/
theorem dedupGo_sublist : ∀ (l : List String) (prev : String),
    List.Sublist (dedupGo prev l) l := by
  intro l
  induction l with
  | nil => intro prev; exact List.Sublist.refl []
  | cons b t ih =>
      intro prev
      by_cases h : prev = b
      · rw [dedupGo, if_pos h]
        exact (ih prev).trans (List.sublist_cons_self b t)
      · rw [dedupGo, if_neg h]
        exact (ih b).cons₂ b

/-- Dedup keeps at least one copy of every element. -/
theorem mem_dedupGo_of_mem : ∀ (l : List String) (prev x : String),
    x ∈ l → x = prev ∨ x ∈ dedupGo prev l := by
  intro l
  induction l with
  | nil => intro prev x h; cases h
  | cons b t ih =>
      intro prev x h
      by_cases hpb : prev = b
      · rw [dedupGo, if_pos hpb]
        rcases List.mem_cons.mp h with rfl | h2
        · exact Or.inl hpb.symm
        · exact ih prev x h2
      · rw [dedupGo, if_neg hpb]
        rcases List.mem_cons.mp h with rfl | h2
        · exact Or.inr (List.mem_cons_self x _)
        · rcases ih b x h2 with rfl | h3
          · exact Or.inr (List.mem_cons_self x _)
          · exact Or.inr (List.mem_cons_of_mem b h3)

/-- Membership in Vec::dedup. -/
theorem mem_rustDedup (l : List String) (x : String) :
    x ∈ rustDedup l ↔ x ∈ l := by
  cases l with
  | nil => simp [rustDedup]
  | cons a t =>
      rw [rustDedup]
      constructor
      · intro h
        rcases List.mem_cons.mp h with rfl | h2
        · exact List.mem_cons_self x t
        · exact List.mem_cons_of_mem a ((dedupGo_sublist t a).mem h2)
      · intro h
        rcases List.mem_cons.mp h with rfl | h2
        · exact List.mem_cons_self x _
        · rcases mem_dedupGo_of_mem t a x h2 with rfl | h3
          · exact List.mem_cons_self x _
          · exact List.mem_cons_of_mem a h3

/-- On an ascending list the dedup tail contains neither its previous
element nor any duplicates. -/
theorem dedupGo_nodup : ∀ (l : List String) (prev : String),
    l.Pairwise (fun a b => strLe a b = true) →
    (∀ x ∈ l, strLe prev x = true) →
    (dedupGo prev l).Nodup ∧ prev ∉ dedupGo prev l := by
  intro l
  induction l with
  | nil => intro prev _ _; exact ⟨List.nodup_nil, by simp [dedupGo]⟩
  | cons b t ih =>
      intro prev hp hprev
      rcases List.pairwise_cons.mp hp with ⟨hb, hpt⟩
      by_cases hpb : prev = b
      · rw [dedupGo, if_pos hpb]
        exact ih prev hpt (fun x hx => hpb ▸ hb x hx)
      · rw [dedupGo, if_neg hpb]
        rcases ih b hpt hb with ⟨hnd, hbnot⟩
        refine ⟨List.nodup_cons.mpr ⟨hbnot, hnd⟩, ?_⟩
        intro hmem
        rcases List.mem_cons.mp hmem with rfl | h2
        · exact hpb rfl
        · have hpt2 : prev ∈ t := (dedupGo_sublist t b).mem h2
          have h3 : strLe b prev = true := hb prev hpt2
          have h4 : strLe prev b = true := hprev b (List.mem_cons_self b t)
          exact hpb (strLe_antisymm prev b h4 h3)

/-- Vec::dedup after an ascending sort leaves no duplicates. -/
theorem rustDedup_nodup (l : List String)
    (h : l.Pairwise (fun a b => strLe a b = true)) : (rustDedup l).Nodup := by
  cases l with
  | nil => exact List.nodup_nil
  | cons a t =>
      rw [rustDedup]
      rcases List.pairwise_cons.mp h with ⟨ha, ht⟩
      rcases dedupGo_nodup t a ht ha with ⟨hnd, hnot⟩
      exact List.nodup_cons.mpr ⟨hnot, hnd⟩

/-- Vec::dedup preserves ascending order. -/
theorem rustDedup_pairwise (l : List String)
    (h : l.Pairwise (fun a b => strLe a b = true)) :
    (rustDedup l).Pairwise (fun a b => strLe a b = true) := by
  cases l with
  | nil => exact List.Pairwise.nil
  | cons a t =>
      rw [rustDedup]
      exact List.Pairwise.sublist (List.Sublist.cons₂ a (dedupGo_sublist t a)) h

/-- C7 (amended): get_installed_components returns a lexically sorted,
duplicate-free list whose members are exactly: the names of the non-hidden
subdirectories not named index.ts/index.js, plus, for every non-hidden
file that is not a .d.ts, a .map, an index.ts or an index.js, the
non-empty piece of its file name before the first dot. -/
theorem c7_installed_scan_semantics (entries : List DirEntry) :
    (get_installed_components entries).Pairwise
      (fun a b => strLe a b = true)
    ∧ (get_installed_components entries).Nodup
    ∧ ∀ x, x ∈ get_installed_components entries ↔
        ∃ e ∈ entries, entryYields e x := by
  refine ⟨?_, ?_, ?_⟩
  · exact rustDedup_pairwise _ (pairwise_sortStrs _)
  · exact rustDedup_nodup _ (pairwise_sortStrs _)
  · intro x
    rw [get_installed_components, mem_rustDedup, mem_sortStrs,
      mem_scanFold entries [] x]
    simp

/-- C7 counterexample: a file named index.svelte is an index-dot file yet
is reported (as component index); a hidden subdirectory is not reported;
and a multi-dot file is named by its first-dot piece, not by
extension-stripping. -/
theorem c7_counterexample :
    get_installed_components [⟨"index.svelte", .file⟩] = ["index"]
    ∧ strStartsWith "index.svelte" "index." = true
    ∧ get_installed_components [⟨".git", .dir⟩] = []
    ∧ get_installed_components [⟨"a.stories.tsx", .file⟩] = ["a"]
    ∧ ("a" : String) ≠ "a.stories" := by
  exact ⟨rfl, by decide, rfl, rfl, by decide⟩

/-- C7 witness: the membership characterization applied to a concrete
listing. -/
theorem c7_witness :
    "button" ∈ get_installed_components
        [⟨"button", .dir⟩, ⟨"button.tsx", .file⟩] ↔
      ∃ e ∈ ([⟨"button", .dir⟩, ⟨"button.tsx", .file⟩] : List DirEntry),
        entryYields e "button" :=
  (c7_installed_scan_semantics [⟨"button", .dir⟩, ⟨"button.tsx", .file⟩]).2.2
    "button"
